import Mathlib

/-!
# PalHA water meter: pulse counting and publish decision

A shallow embedding of `src/main.c`: the sampler task `rt_task` (debounce filter,
edge detection, transition counters) and the reporter task `app_task` (publish
decision, payload formatting), followed by the properties proved about them.

Machine integers are natural numbers reduced modulo `2 ^ 32`; the C arrays of
length `SENSE_PIN_NUM` are functions on `Fin SENSE_PIN_NUM`; the values the tasks
obtain from the platform (pin levels, tick counts, the message id returned by
the MQTT client) are inputs of the cycle functions.
-/

namespace WaterMeter

/-! ## Constants of `main.c` -/

/-- Filter depth, `#define SENSE_DEPTH 6`. -/
def SENSE_DEPTH : Nat := 6

/-- Maximum interval between publishing in milliseconds, `#define SENSE_PUB_MAX 30000`. -/
def SENSE_PUB_MAX : Int := 30000

/-- Number of input pins, `sizeof(SENSE_PINS)/sizeof(gpio_num_t)` for the two pins listed. -/
abbrev SENSE_PIN_NUM : Nat := 2

/-- Modulus of `uint32_t` arithmetic. -/
def U32 : Nat := 2 ^ 32

/-! ## The sampler task `rt_task` -/

/-- The two branches of the edge detector that log and count a transition. -/
inductive Transition where
  | Falling
  | Rising
deriving DecidableEq, Repr

/-- The variables of one channel `i`: `PinBuf[i]`, `PinState[i]`, `PinCount[i]`. -/
structure Pin where
  PinBuf : Nat
  PinState : Bool
  PinCount : Nat
deriving DecidableEq, Repr

/-- The value of `uint32_t Mask = (1 << SENSE_DEPTH) - 1` for a given depth. -/
def Mask (depth : Nat) : Nat := ((1 <<< depth) - 1) % U32

/-- Initialisation of one channel from the level read on its pin (lines 60-61):
`PinState[i] = level; PinBuf[i] = PinState[i] ? 0xFFFFFFFF : 0`, the counter being zero. -/
def pinInit (level : Bool) : Pin :=
  { PinBuf := if level then 0xFFFFFFFF else 0, PinState := level, PinCount := 0 }

/-- The body of the per-pin loop (lines 79-101) on the variables of one channel:
shift the sample into the buffer, mask, and test for a falling or rising edge. -/
def pinStep (depth : Nat) (c : Pin) (NewVal : Bool) : Pin × Option Transition :=
  let PinBuf := ((c.PinBuf <<< 1) % U32) ||| NewVal.toNat
  let Masked := PinBuf &&& Mask depth
  if 0 = Masked ∧ c.PinState = true then
    ({ PinBuf := PinBuf, PinState := false, PinCount := (c.PinCount + 1) % U32 },
      some Transition.Falling)
  else if Mask depth = Masked ∧ c.PinState = false then
    ({ PinBuf := PinBuf, PinState := true, PinCount := (c.PinCount + 1) % U32 },
      some Transition.Rising)
  else
    ({ PinBuf := PinBuf, PinState := c.PinState, PinCount := c.PinCount }, none)

/-- The state of the sampler between two cycles: the local arrays of `rt_task`
and the public array `sense_counter`. -/
structure RtState where
  PinBuf : Fin SENSE_PIN_NUM → Nat
  PinState : Fin SENSE_PIN_NUM → Bool
  PinCount : Fin SENSE_PIN_NUM → Nat
  sense_counter : Fin SENSE_PIN_NUM → Nat

/-- The variables of channel `i` in a sampler state. -/
def RtState.pin (st : RtState) (i : Fin SENSE_PIN_NUM) : Pin :=
  { PinBuf := st.PinBuf i, PinState := st.PinState i, PinCount := st.PinCount i }

/-- Write the variables of channel `i` back into the arrays. -/
def RtState.setPin (st : RtState) (i : Fin SENSE_PIN_NUM) (c : Pin) : RtState :=
  { PinBuf := Function.update st.PinBuf i c.PinBuf,
    PinState := Function.update st.PinState i c.PinState,
    PinCount := Function.update st.PinCount i c.PinCount,
    sense_counter := st.sense_counter }

/-- State of `rt_task` when it enters its loop (lines 50-63), `level i` being the
value `gpio_get_level` returned for pin `i`; `sense_counter` is zero-initialised. -/
def rt_init (level : Fin SENSE_PIN_NUM → Bool) : RtState :=
  { PinBuf := fun i => (pinInit (level i)).PinBuf,
    PinState := fun i => (pinInit (level i)).PinState,
    PinCount := fun i => (pinInit (level i)).PinCount,
    sense_counter := fun _ => 0 }

/-- The per-pin loop of one cycle (lines 76-103): each pin in index order, with
the transition logged for each pin, if any. -/
def rt_pins (depth : Nat) (st : RtState) (level : Fin SENSE_PIN_NUM → Bool) :
    RtState × (Fin SENSE_PIN_NUM → Option Transition) :=
  (List.finRange SENSE_PIN_NUM).foldl
    (fun acc i =>
      let r := pinStep depth (acc.1.pin i) (level i)
      (acc.1.setPin i r.1, Function.update acc.2 i r.2))
    (st, fun _ => none)

/-- The copy-out loop (lines 107-110): `sense_counter[i] = PinCount[i]` for each pin
in index order. -/
def rt_copy_out (PinCount sense_counter : Fin SENSE_PIN_NUM → Nat) :
    Fin SENSE_PIN_NUM → Nat :=
  (List.finRange SENSE_PIN_NUM).foldl
    (fun sense_counter i => Function.update sense_counter i (PinCount i)) sense_counter

/-- One cycle of the sampler loop (lines 75-111): the per-pin loop, then the copy
of the local counters into `sense_counter`. -/
def rt_cycle (depth : Nat) (st : RtState) (level : Fin SENSE_PIN_NUM → Bool) :
    RtState × (Fin SENSE_PIN_NUM → Option Transition) :=
  let r := rt_pins depth st level
  ({ PinBuf := r.1.PinBuf, PinState := r.1.PinState, PinCount := r.1.PinCount,
     sense_counter := rt_copy_out r.1.PinCount r.1.sense_counter }, r.2)

/-- The sampler state after a sequence of cycles, one entry of `samples` per cycle. -/
def rt_run (depth : Nat) (level : Fin SENSE_PIN_NUM → Bool)
    (samples : List (Fin SENSE_PIN_NUM → Bool)) : RtState :=
  samples.foldl (fun st s => (rt_cycle depth st s).1) (rt_init level)

/-- One channel run on its own over a sequence of samples. -/
def pinRun (depth : Nat) (c : Pin) (samples : List Bool) : Pin :=
  samples.foldl (fun c x => (pinStep depth c x).1) c

/-- The transitions one channel logs over a sequence of samples, one entry per sample. -/
def pinTrace (depth : Nat) (c : Pin) : List Bool → List (Option Transition)
  | [] => []
  | x :: xs => (pinStep depth c x).2 :: pinTrace depth (pinStep depth c x).1 xs

/-- The most recent `D` samples, latest first, of a channel whose pin read `level`
at initialisation and then yielded `samples`, the history being taken as if
`level` had been sampled `D` times before the first sample. -/
def recentSamples (D : Nat) (level : Bool) (samples : List Bool) : List Bool :=
  ((List.replicate D level ++ samples).reverse).take D

/-- The transitions logged over a sequence of sampler cycles, one entry per cycle
giving the transition logged for each channel. -/
def rt_events (depth : Nat) (st : RtState) :
    List (Fin SENSE_PIN_NUM → Bool) → List (Fin SENSE_PIN_NUM → Option Transition)
  | [] => []
  | s :: ss => (rt_cycle depth st s).2 :: rt_events depth (rt_cycle depth st s).1 ss

/-- The number of cycles of a log in which a transition was logged for channel `i`. -/
def accepted (i : Fin SENSE_PIN_NUM) (evs : List (Fin SENSE_PIN_NUM → Option Transition)) : Nat :=
  evs.countP (fun e => (e i).isSome)

/-- Input samples for one pin: `n` blocks of `depth` equal samples each, alternately
high and low, the first block high. -/
def toggleSamples (depth : Nat) : Nat → List Bool
  | 0 => []
  | n + 1 => toggleSamples depth n ++ List.replicate depth (decide (n % 2 = 0))

/-- The same samples on every pin, cycle by cycle. -/
def onAllPins (xs : List Bool) : List (Fin SENSE_PIN_NUM → Bool) :=
  xs.map (fun v _ => v)

/-- The low `depth` bits of a history register are unanimous at level `v`: the
masked register is all ones for high, zero for low. -/
def unanimous (depth : Nat) (PinBuf : Nat) (v : Bool) : Prop :=
  PinBuf &&& Mask depth = if v = true then Mask depth else 0

instance (depth PinBuf : Nat) (v : Bool) : Decidable (unanimous depth PinBuf v) := by
  unfold unanimous
  infer_instance

/-- The stable level a logged transition leads to. -/
def levelAfter : Transition → Bool
  | Transition.Falling => false
  | Transition.Rising => true

/-! ## The reporter task `app_task` -/

/-- The value of a 32-bit pattern read as `int32_t` (two's complement). -/
def toInt32 (n : Nat) : Int :=
  if n % U32 < 2 ^ 31 then ((n % U32 : Nat) : Int) else ((n % U32 : Nat) : Int) - (U32 : Int)

/-- The text `sprintf` writes for a `%d` conversion of an `int`. -/
def fmt_d (v : Int) : String := toString v

/-- The text of `sprintf(element," \"Sense%d\": %d",i,PinCount[0][i])` (line 177): the
counter is a `uint32_t` passed to `%d`, which prints its 32 bits as an `int`. -/
def element (i : Fin SENSE_PIN_NUM) (count : Nat) : String :=
  " \"Sense" ++ fmt_d (i.val : Int) ++ "\": " ++ fmt_d (toInt32 count)

/-- The message built at lines 173-187: `strcpy(msg,"{")`, then for each pin the
element and, unless it is the last pin, `", "`, then `strcat(msg," }")`. -/
def build_msg (counts : Fin SENSE_PIN_NUM → Nat) : String :=
  (List.finRange SENSE_PIN_NUM).foldl
    (fun msg i =>
      if i.val ≠ SENSE_PIN_NUM - 1 then (msg ++ element i (counts i)) ++ ", "
      else msg ++ element i (counts i))
    "\x7b" ++ " \x7d"

/-- The state of the reporter between two cycles: `PinCount[0]` (current snapshot),
`PinCount[1]` (previous snapshot) and `LastPub` in ticks. -/
structure AppState where
  PinCount : Fin 2 → Fin SENSE_PIN_NUM → Nat
  LastPub : Nat

/-- What one reporter cycle obtains from outside the task: the values of
`sense_counter` copied under the lock, the tick count read at line 162, and, used
only when the cycle publishes, the message id returned by
`esp_mqtt_client_publish` and the tick count read at line 196. -/
structure AppInput where
  sense_counter : Fin SENSE_PIN_NUM → Nat
  now : Nat
  id : Int
  pubTick : Nat

/-- A call of `esp_mqtt_client_publish`: the message passed and the id returned. -/
structure Publish where
  msg : String
  id : Int
deriving DecidableEq, Repr

/-- State of `app_task` when it enters its loop (lines 123-137): snapshots zeroed,
`LastPub` the tick count read at line 133. -/
def app_init (tick : Nat) : AppState :=
  { PinCount := fun _ _ => 0, LastPub := tick }

/-- The comparison loop (lines 150-160): `change` is set when a pin's current value
differs from its previous one, and the previous value is overwritten in any case. -/
def app_compare (PinCount : Fin 2 → Fin SENSE_PIN_NUM → Nat) :
    Bool × (Fin 2 → Fin SENSE_PIN_NUM → Nat) :=
  (List.finRange SENSE_PIN_NUM).foldl
    (fun acc i =>
      (if acc.2 0 i ≠ acc.2 1 i then true else acc.1,
        Function.update acc.2 1 (Function.update (acc.2 1) i (acc.2 0 i))))
    (false, PinCount)

/-- The value of `int32_t delta = pdTICKS_TO_MS(now - LastPub)` (line 163): the tick
difference is taken in `uint32_t`, converted by the FreeRTOS conversion
`pdTICKS_TO_MS`, a parameter here, and stored in an `int32_t`. -/
def delta (pdTICKS_TO_MS : Nat → Nat) (now LastPub : Nat) : Int :=
  toInt32 (pdTICKS_TO_MS ((now % U32 + U32 - LastPub % U32) % U32))

/-- One cycle of the reporter loop (lines 140-197): snapshot, comparison, staleness
test, and, when `change` is set, the publish and the update of `LastPub`. -/
def app_cycle (pdTICKS_TO_MS : Nat → Nat) (st : AppState) (inp : AppInput) :
    AppState × Option Publish :=
  let r := app_compare (Function.update st.PinCount 0 inp.sense_counter)
  let change := if delta pdTICKS_TO_MS inp.now st.LastPub > SENSE_PUB_MAX then true else r.1
  if change = true then
    ({ PinCount := r.2, LastPub := inp.pubTick },
      some { msg := build_msg (r.2 0), id := inp.id })
  else
    ({ PinCount := r.2, LastPub := st.LastPub }, none)

/-- A sequence of reporter cycles: the final state and, per cycle, the publish made. -/
def app_run (pdTICKS_TO_MS : Nat → Nat) (st : AppState) :
    List AppInput → AppState × List (Option Publish)
  | [] => (st, [])
  | inp :: rest =>
    ((app_run pdTICKS_TO_MS (app_cycle pdTICKS_TO_MS st inp).1 rest).1,
      (app_cycle pdTICKS_TO_MS st inp).2 ::
        (app_run pdTICKS_TO_MS (app_cycle pdTICKS_TO_MS st inp).1 rest).2)

/-! ## The two tasks interleaved

The copy-out of `rt_task` (lines 105-111) and the snapshot of `app_task` (lines
140-147) taken apart into their statements, one statement per turn of a task, so
that a schedule can interleave them. -/

/-- The two tasks that use `sense_lock`. -/
inductive TaskId where
  | rt
  | app
deriving DecidableEq, Repr

/-- Where `rt_task` stands in its cycle: before the per-pin loop, at
`xSemaphoreTake` (line 106), or inside the copy-out loop about to test index `k`
(lines 107-110, then `xSemaphoreGive` at line 111). -/
inductive RtPc where
  | sampling
  | waiting
  | copying (k : Nat)
deriving DecidableEq, Repr

/-- Where `app_task` stands in its cycle: outside the locked region, up to
`xSemaphoreTake` (line 141), or inside the snapshot loop about to test index `k`
(lines 142-146, then `xSemaphoreGive` at line 147). -/
inductive AppPc where
  | idle
  | copying (k : Nat)
deriving DecidableEq, Repr

/-- The variables of both tasks that the locked regions touch: the sampler state
with the shared `sense_counter`, the reporter's `PinCount[0]`, the two positions
and the holder of `sense_lock`. -/
structure Sys where
  rt : RtState
  rtPc : RtPc
  appPinCount : Fin SENSE_PIN_NUM → Nat
  appPc : AppPc
  sense_lock : Option TaskId

/-- One turn of a schedule: the task that runs its next statement; a turn of
`rt_task` carries the pin levels it reads if that statement is the per-pin loop. -/
inductive Turn where
  | rt (level : Fin SENSE_PIN_NUM → Bool)
  | app

/-- Modelled from the spec: `xSemaphoreTake(sense_lock,portMAX_DELAY)` on the
mutual-exclusion lock, whose implementation is not in the source. A task
acquires the lock only when no task holds it; with no timeout it otherwise
stays blocked, which `none` stands for. -/
def takeLock (lock : Option TaskId) (t : TaskId) : Option (Option TaskId) :=
  match lock with
  | none => some (some t)
  | some _ => none

/-- Modelled from the spec: `xSemaphoreGive(sense_lock)`, releasing the lock. -/
def giveLock : Option TaskId := none

/-- The next statement of `rt_task`: the per-pin loop, the take of the lock, one
assignment `sense_counter[k] = PinCount[k]`, or the give of the lock once the
loop condition `k < SENSE_PIN_NUM` fails. A blocked take leaves the state as it is. -/
def rt_turn (s : Sys) (level : Fin SENSE_PIN_NUM → Bool) : Sys :=
  match s.rtPc with
  | RtPc.sampling =>
    { s with rt := (rt_pins SENSE_DEPTH s.rt level).1, rtPc := RtPc.waiting }
  | RtPc.waiting =>
    match takeLock s.sense_lock TaskId.rt with
    | some l => { s with sense_lock := l, rtPc := RtPc.copying 0 }
    | none => s
  | RtPc.copying k =>
    if h : k < SENSE_PIN_NUM then
      { s with
        rt := { s.rt with
          sense_counter := Function.update s.rt.sense_counter ⟨k, h⟩ (s.rt.PinCount ⟨k, h⟩) },
        rtPc := RtPc.copying (k + 1) }
    else
      { s with sense_lock := giveLock, rtPc := RtPc.sampling }

/-- The next statement of `app_task` in its locked region: the take of the lock, one
assignment `PinCount[0][k] = sense_counter[k]`, or the give of the lock once the
loop condition fails. A blocked take leaves the state as it is. -/
def app_turn (s : Sys) : Sys :=
  match s.appPc with
  | AppPc.idle =>
    match takeLock s.sense_lock TaskId.app with
    | some l => { s with sense_lock := l, appPc := AppPc.copying 0 }
    | none => s
  | AppPc.copying k =>
    if h : k < SENSE_PIN_NUM then
      { s with
        appPinCount := Function.update s.appPinCount ⟨k, h⟩ (s.rt.sense_counter ⟨k, h⟩),
        appPc := AppPc.copying (k + 1) }
    else
      { s with sense_lock := giveLock, appPc := AppPc.idle }

/-- One turn of the schedule. -/
def turn (s : Sys) : Turn → Sys
  | Turn.rt level => rt_turn s level
  | Turn.app => app_turn s

/-- Modelled from the spec: the two tasks are scheduled independently and
concurrently, so any sequence of turns is a schedule; this is the state it
leads to. -/
def exec (s : Sys) (schedule : List Turn) : Sys :=
  schedule.foldl turn s

/-- The state in which both tasks start: `rt_task` initialised from the pin levels,
every counter array zero, the lock created and free. -/
def sysInit (level : Fin SENSE_PIN_NUM → Bool) : Sys :=
  { rt := rt_init level, rtPc := RtPc.sampling, appPinCount := fun _ => 0,
    appPc := AppPc.idle, sense_lock := none }

/-- The values `v` are the initial all-zero counters or the counter values that one
single copy-out of the sampler, completed at some point of the schedule, wrote
into `sense_counter` from its `PinCount`. -/
def copiedOut (level : Fin SENSE_PIN_NUM → Bool) (schedule : List Turn)
    (v : Fin SENSE_PIN_NUM → Nat) : Prop :=
  v = (fun _ => 0) ∨
    ∃ p, p <+: schedule ∧
      (exec (sysInit level) p).rtPc = RtPc.copying SENSE_PIN_NUM ∧
      (exec (sysInit level) p).rt.sense_counter = v ∧
      (exec (sysInit level) p).rt.PinCount = v

/-- What the lock discipline maintains, `C` standing for `copiedOut` along the
schedule so far: a task inside its loop holds the lock and has copied the
indices below its position; outside the sampler's loop `sense_counter` is a
copied-out vector, and so is the reporter's snapshot outside the reporter's loop. -/
def lockInv (C : (Fin SENSE_PIN_NUM → Nat) → Prop) (s : Sys) : Prop :=
  (∀ k, s.rtPc = RtPc.copying k →
    s.sense_lock = some TaskId.rt ∧ k ≤ SENSE_PIN_NUM ∧
      ∀ j : Fin SENSE_PIN_NUM, j.val < k → s.rt.sense_counter j = s.rt.PinCount j) ∧
  ((∀ k, s.rtPc ≠ RtPc.copying k) → C s.rt.sense_counter) ∧
  (∀ k, s.appPc = AppPc.copying k →
    s.sense_lock = some TaskId.app ∧ k ≤ SENSE_PIN_NUM ∧
      ∀ j : Fin SENSE_PIN_NUM, j.val < k → s.appPinCount j = s.rt.sense_counter j) ∧
  (s.appPc = AppPc.idle → C s.appPinCount)

/-! ## Bit-level facts about the history register -/

theorem Mask_eq (depth : Nat) (hd : depth ≤ 32) : Mask depth = 2 ^ depth - 1 := by
  unfold Mask U32
  rw [Nat.shiftLeft_eq, Nat.one_mul]
  apply Nat.mod_eq_of_lt
  have h1 : 2 ^ depth ≤ 2 ^ 32 := Nat.pow_le_pow_right (by decide) hd
  have h2 : 0 < 2 ^ depth := Nat.pos_pow_of_pos depth (by decide)
  omega

theorem testBit_Mask (depth j : Nat) (hd : depth ≤ 32) :
    (Mask depth).testBit j = decide (j < depth) := by
  rw [Mask_eq depth hd, Nat.testBit_two_pow_sub_one]

theorem and_Mask_eq_zero_iff (n depth : Nat) (hd : depth ≤ 32) :
    0 = n &&& Mask depth ↔ ∀ j, j < depth → n.testBit j = false := by
  constructor
  · intro h j hj
    have := congrArg (fun m => m.testBit j) h
    simp only [Nat.zero_testBit, Nat.testBit_and, testBit_Mask depth j hd] at this
    simpa [hj] using this.symm
  · intro h
    apply Nat.eq_of_testBit_eq
    intro j
    rw [Nat.zero_testBit, Nat.testBit_and, testBit_Mask depth j hd]
    by_cases hj : j < depth
    · simp [h j hj]
    · simp [hj]

theorem Mask_eq_and_iff (n depth : Nat) (hd : depth ≤ 32) :
    Mask depth = n &&& Mask depth ↔ ∀ j, j < depth → n.testBit j = true := by
  constructor
  · intro h j hj
    have := congrArg (fun m => m.testBit j) h
    simp only [Nat.testBit_and, testBit_Mask depth j hd] at this
    simpa [hj] using this.symm
  · intro h
    apply Nat.eq_of_testBit_eq
    intro j
    rw [Nat.testBit_and, testBit_Mask depth j hd]
    by_cases hj : j < depth
    · simp [h j hj]
    · simp [hj]

/-- Bit 0 of the shifted buffer is the new sample. -/
theorem testBit_shiftIn_zero (buf : Nat) (x : Bool) :
    (((buf <<< 1) % U32) ||| x.toNat).testBit 0 = x := by
  rw [Nat.testBit_or]
  unfold U32
  rw [Nat.testBit_mod_two_pow, Nat.testBit_shiftLeft]
  cases x <;> simp

/-- Bit `j + 1` of the shifted buffer is bit `j` of the buffer before, within 32 bits. -/
theorem testBit_shiftIn_succ (buf : Nat) (x : Bool) (j : Nat) (hj : j + 1 < 32) :
    (((buf <<< 1) % U32) ||| x.toNat).testBit (j + 1) = buf.testBit j := by
  rw [Nat.testBit_or]
  unfold U32
  rw [Nat.testBit_mod_two_pow, Nat.testBit_shiftLeft]
  cases x <;> simp [hj, Nat.testBit_succ]

/-! ## One channel: buffer contents and edge conditions -/

theorem pinStep_PinBuf (depth : Nat) (c : Pin) (x : Bool) :
    (pinStep depth c x).1.PinBuf = ((c.PinBuf <<< 1) % U32) ||| x.toNat := by
  unfold pinStep
  dsimp only
  split_ifs <;> rfl

theorem pinStep_falling_iff (depth : Nat) (c : Pin) (x : Bool) :
    (pinStep depth c x).2 = some Transition.Falling ↔
      (0 = (((c.PinBuf <<< 1) % U32) ||| x.toNat) &&& Mask depth ∧ c.PinState = true) := by
  unfold pinStep
  dsimp only
  split_ifs with h1 h2 <;> simp [h1]

theorem pinStep_rising_iff (depth : Nat) (c : Pin) (x : Bool) :
    (pinStep depth c x).2 = some Transition.Rising ↔
      (Mask depth = (((c.PinBuf <<< 1) % U32) ||| x.toNat) &&& Mask depth ∧
        c.PinState = false) := by
  unfold pinStep
  dsimp only
  split_ifs with h1 h2
  · simp [h1.2]
  · exact ⟨fun _ => h2, fun _ => rfl⟩
  · constructor
    · intro h
      cases h
    · intro h
      exact absurd h h2

theorem pinRun_append (depth : Nat) (c : Pin) (xs : List Bool) (x : Bool) :
    pinRun depth c (xs ++ [x]) = (pinStep depth (pinRun depth c xs) x).1 := by
  simp [pinRun, List.foldl_append]

theorem pinInit_testBit (b : Bool) (j : Nat) (hj : j < 32) :
    (pinInit b).PinBuf.testBit j = b := by
  cases b
  · exact Nat.zero_testBit j
  · have h : (0xFFFFFFFF : Nat) = 2 ^ 32 - 1 := by decide
    simp only [pinInit, if_true, h, Nat.testBit_two_pow_sub_one]
    simpa using hj

/-- The buffer holds the samples: bit `j` is the `j`-th most recent sample, or the
initial level when fewer than `j + 1` samples have been taken. -/
theorem pinRun_testBit (depth : Nat) (b : Bool) (xs : List Bool) :
    ∀ j, j < 32 → (pinRun depth (pinInit b) xs).PinBuf.testBit j = xs.reverse.getD j b := by
  induction xs using List.reverseRecOn with
  | nil =>
    intro j hj
    simpa [pinRun] using pinInit_testBit b j hj
  | append_singleton xs x ih =>
    intro j hj
    rw [pinRun_append, pinStep_PinBuf, List.reverse_append]
    cases j with
    | zero =>
      rw [testBit_shiftIn_zero]
      simp
    | succ k =>
      rw [testBit_shiftIn_succ _ _ k hj, ih k (by omega)]
      simp

theorem forall_mem_take_iff {α : Type} (P : α → Prop) (d : α) (l : List α) :
    ∀ D, D ≤ l.length → ((∀ y ∈ l.take D, P y) ↔ ∀ j, j < D → P (l.getD j d)) := by
  induction l with
  | nil =>
    intro D hD
    have : D = 0 := by simpa using hD
    subst this
    simp
  | cons a t ih =>
    intro D hD
    cases D with
    | zero => simp
    | succ n =>
      have hn : n ≤ t.length := by simpa using hD
      simp only [List.take_succ_cons, List.forall_mem_cons, ih n hn]
      constructor
      · rintro ⟨ha, ht⟩ j hj
        cases j with
        | zero => simpa using ha
        | succ k => simpa using ht k (by omega)
      · intro h
        refine ⟨by simpa using h 0 (by omega), ?_⟩
        intro j hj
        simpa using h (j + 1) (by omega)

/-- The window of the most recent samples is unanimous exactly when the `D` most
recent entries of the history, padded with the initial level, all have that value. -/
theorem recentSamples_all_iff (D : Nat) (b v : Bool) (ys : List Bool) :
    (∀ y ∈ recentSamples D b ys, y = v) ↔ ∀ j, j < D → ys.reverse.getD j b = v := by
  unfold recentSamples
  rw [List.reverse_append, List.reverse_replicate,
    forall_mem_take_iff (fun y => y = v) b _ D (by simp)]
  constructor
  · intro h j hj
    have := h j hj
    by_cases hl : j < ys.reverse.length
    · rwa [List.getD_append _ _ _ _ hl] at this
    · rw [List.getD_eq_default _ _ (by omega)]
      rw [List.getD_append_right _ _ _ _ (by omega)] at this
      by_cases hr : j - ys.reverse.length < (List.replicate D b).length
      · rwa [List.getD_eq_getElem _ _ hr, List.getElem_replicate] at this
      · rwa [List.getD_eq_default _ _ (by omega)] at this
  · intro h j hj
    have := h j hj
    by_cases hl : j < ys.reverse.length
    · rwa [List.getD_append _ _ _ _ hl]
    · rw [List.getD_eq_default _ _ (by omega)] at this
      rw [List.getD_append_right _ _ _ _ (by omega)]
      by_cases hr : j - ys.reverse.length < (List.replicate D b).length
      · rwa [List.getD_eq_getElem _ _ hr, List.getElem_replicate]
      · rwa [List.getD_eq_default _ _ (by omega)]

theorem pin_falling_iff (depth : Nat) (hd : depth ≤ 32) (b : Bool) (xs : List Bool) (x : Bool) :
    (pinStep depth (pinRun depth (pinInit b) xs) x).2 = some Transition.Falling ↔
      ((∀ y ∈ recentSamples depth b (xs ++ [x]), y = false) ∧
        (pinRun depth (pinInit b) xs).PinState = true) := by
  rw [pinStep_falling_iff, ← pinStep_PinBuf depth, ← pinRun_append, and_Mask_eq_zero_iff _ _ hd,
    recentSamples_all_iff]
  constructor
  · rintro ⟨h, hs⟩
    refine ⟨fun j hj => ?_, hs⟩
    rw [← pinRun_testBit depth b _ j (by omega)]
    exact h j hj
  · rintro ⟨h, hs⟩
    refine ⟨fun j hj => ?_, hs⟩
    rw [pinRun_testBit depth b _ j (by omega)]
    exact h j hj

theorem pin_rising_iff (depth : Nat) (hd : depth ≤ 32) (b : Bool) (xs : List Bool) (x : Bool) :
    (pinStep depth (pinRun depth (pinInit b) xs) x).2 = some Transition.Rising ↔
      ((∀ y ∈ recentSamples depth b (xs ++ [x]), y = true) ∧
        (pinRun depth (pinInit b) xs).PinState = false) := by
  rw [pinStep_rising_iff, ← pinStep_PinBuf depth, ← pinRun_append, Mask_eq_and_iff _ _ hd,
    recentSamples_all_iff]
  constructor
  · rintro ⟨h, hs⟩
    refine ⟨fun j hj => ?_, hs⟩
    rw [← pinRun_testBit depth b _ j (by omega)]
    exact h j hj
  · rintro ⟨h, hs⟩
    refine ⟨fun j hj => ?_, hs⟩
    rw [pinRun_testBit depth b _ j (by omega)]
    exact h j hj

/-- What a step does to the stable state and the counter, by the transition it logs. -/
theorem pinStep_cases (depth : Nat) (c : Pin) (x : Bool) :
    ((pinStep depth c x).2 = some Transition.Falling ∧ c.PinState = true ∧
        (pinStep depth c x).1.PinState = false ∧
        (pinStep depth c x).1.PinCount = (c.PinCount + 1) % U32) ∨
    ((pinStep depth c x).2 = some Transition.Rising ∧ c.PinState = false ∧
        (pinStep depth c x).1.PinState = true ∧
        (pinStep depth c x).1.PinCount = (c.PinCount + 1) % U32) ∨
    ((pinStep depth c x).2 = none ∧
        (pinStep depth c x).1.PinState = c.PinState ∧
        (pinStep depth c x).1.PinCount = c.PinCount) := by
  unfold pinStep
  dsimp only
  split_ifs with h1 h2
  · exact Or.inl ⟨rfl, h1.2, rfl, rfl⟩
  · exact Or.inr (Or.inl ⟨rfl, h2.2, rfl, rfl⟩)
  · exact Or.inr (Or.inr ⟨rfl, rfl, rfl⟩)

/-! ## The sampler cycle, channel by channel -/

theorem rt_pins_eq (depth : Nat) (st : RtState) (s : Fin SENSE_PIN_NUM → Bool) :
    rt_pins depth st s =
      (((st.setPin 0 (pinStep depth (st.pin 0) (s 0)).1).setPin 1
          (pinStep depth ((st.setPin 0 (pinStep depth (st.pin 0) (s 0)).1).pin 1) (s 1)).1),
        Function.update (Function.update (fun _ => none) 0 (pinStep depth (st.pin 0) (s 0)).2) 1
          (pinStep depth ((st.setPin 0 (pinStep depth (st.pin 0) (s 0)).1).pin 1) (s 1)).2) := by
  rfl

/-- The cycle acts on channel `i` as the loop body does on that channel's variables. -/
theorem rt_cycle_pin (depth : Nat) (st : RtState) (s : Fin SENSE_PIN_NUM → Bool)
    (i : Fin SENSE_PIN_NUM) :
    (rt_cycle depth st s).1.pin i = (pinStep depth (st.pin i) (s i)).1 := by
  unfold rt_cycle
  rw [rt_pins_eq]
  fin_cases i <;> simp [RtState.pin, RtState.setPin, Function.update]

/-- The transition the cycle logs for channel `i` is the one the loop body logs. -/
theorem rt_cycle_event (depth : Nat) (st : RtState) (s : Fin SENSE_PIN_NUM → Bool)
    (i : Fin SENSE_PIN_NUM) :
    (rt_cycle depth st s).2 i = (pinStep depth (st.pin i) (s i)).2 := by
  unfold rt_cycle
  rw [rt_pins_eq]
  fin_cases i <;> simp [RtState.pin, RtState.setPin, Function.update]

/-- The copy-out loop leaves the local counters in the public array. -/
theorem rt_copy_out_eq (PinCount sense_counter : Fin SENSE_PIN_NUM → Nat) :
    rt_copy_out PinCount sense_counter = PinCount := by
  have h : rt_copy_out PinCount sense_counter =
      Function.update (Function.update sense_counter 0 (PinCount 0)) 1 (PinCount 1) := rfl
  rw [h]
  funext i
  fin_cases i <;> simp [Function.update]

theorem rt_cycle_sense_counter (depth : Nat) (st : RtState) (s : Fin SENSE_PIN_NUM → Bool) :
    (rt_cycle depth st s).1.sense_counter = (rt_cycle depth st s).1.PinCount := by
  unfold rt_cycle
  exact rt_copy_out_eq _ _

theorem rt_run_append (depth : Nat) (level : Fin SENSE_PIN_NUM → Bool)
    (ss : List (Fin SENSE_PIN_NUM → Bool)) (s : Fin SENSE_PIN_NUM → Bool) :
    rt_run depth level (ss ++ [s]) = (rt_cycle depth (rt_run depth level ss) s).1 := by
  simp [rt_run, List.foldl_append]

/-- Channel `i` of a sampler run is that channel run on its own samples. -/
theorem rt_run_pin (depth : Nat) (level : Fin SENSE_PIN_NUM → Bool)
    (ss : List (Fin SENSE_PIN_NUM → Bool)) (i : Fin SENSE_PIN_NUM) :
    (rt_run depth level ss).pin i =
      pinRun depth (pinInit (level i)) (ss.map (fun s => s i)) := by
  induction ss using List.reverseRecOn with
  | nil => rfl
  | append_singleton ss s ih =>
    rw [rt_run_append, rt_cycle_pin, ih, List.map_append, List.map_singleton, pinRun_append]

theorem rt_run_PinCount (depth : Nat) (level : Fin SENSE_PIN_NUM → Bool)
    (ss : List (Fin SENSE_PIN_NUM → Bool)) (i : Fin SENSE_PIN_NUM) :
    (rt_run depth level ss).PinCount i =
      (pinRun depth (pinInit (level i)) (ss.map (fun s => s i))).PinCount := by
  rw [← rt_run_pin]
  rfl

theorem rt_cycle_PinCount (depth : Nat) (level : Fin SENSE_PIN_NUM → Bool)
    (ss : List (Fin SENSE_PIN_NUM → Bool)) (s : Fin SENSE_PIN_NUM → Bool)
    (i : Fin SENSE_PIN_NUM) :
    (rt_cycle depth (rt_run depth level ss) s).1.PinCount i =
      (pinRun depth (pinInit (level i)) (ss.map (fun s => s i) ++ [s i])).PinCount := by
  rw [pinRun_append, ← rt_run_pin, ← rt_cycle_pin]
  rfl

/-- Between cycles the public counters equal the local counters. -/
theorem rt_run_sense_counter (depth : Nat) (level : Fin SENSE_PIN_NUM → Bool)
    (ss : List (Fin SENSE_PIN_NUM → Bool)) :
    (rt_run depth level ss).sense_counter = (rt_run depth level ss).PinCount := by
  induction ss using List.reverseRecOn with
  | nil => rfl
  | append_singleton ss s _ => rw [rt_run_append, rt_cycle_sense_counter]

/-- The edge detector of one channel, at any depth up to the register width: a
transition is logged exactly when the window is unanimous and differs from the
stable state, which then becomes the window's level. -/
theorem pin_accept_spec (depth : Nat) (hd : depth ≤ 32) (b : Bool) (xs : List Bool) (x : Bool) :
    (((pinStep depth (pinRun depth (pinInit b) xs) x).2.isSome = true ↔
        ∃ v, (∀ y ∈ recentSamples depth b (xs ++ [x]), y = v) ∧
          v ≠ (pinRun depth (pinInit b) xs).PinState) ∧
      (∀ v, (∀ y ∈ recentSamples depth b (xs ++ [x]), y = v) →
          v ≠ (pinRun depth (pinInit b) xs).PinState →
          (pinStep depth (pinRun depth (pinInit b) xs) x).1.PinState = v ∧
            (pinStep depth (pinRun depth (pinInit b) xs) x).2 =
              some (if v = true then Transition.Rising else Transition.Falling)) ∧
      ((pinStep depth (pinRun depth (pinInit b) xs) x).2 = none →
          (pinStep depth (pinRun depth (pinInit b) xs) x).1.PinState =
            (pinRun depth (pinInit b) xs).PinState)) := by
  have hF := pin_falling_iff depth hd b xs x
  have hR := pin_rising_iff depth hd b xs x
  have hC := pinStep_cases depth (pinRun depth (pinInit b) xs) x
  refine ⟨⟨?_, ?_⟩, ?_, ?_⟩
  · intro h
    rcases hC with ⟨e, _⟩ | ⟨e, _⟩ | ⟨e, _⟩
    · have := hF.1 e
      exact ⟨false, this.1, by simp [this.2]⟩
    · have := hR.1 e
      exact ⟨true, this.1, by simp [this.2]⟩
    · rw [e] at h
      cases h
  · rintro ⟨v, hw, hv⟩
    cases v
    · have hs : (pinRun depth (pinInit b) xs).PinState = true := by
        cases h : (pinRun depth (pinInit b) xs).PinState
        · exact absurd h.symm hv
        · rfl
      rw [hF.2 ⟨hw, hs⟩]
      rfl
    · have hs : (pinRun depth (pinInit b) xs).PinState = false := by
        cases h : (pinRun depth (pinInit b) xs).PinState
        · rfl
        · exact absurd h.symm hv
      rw [hR.2 ⟨hw, hs⟩]
      rfl
  · intro v hw hv
    cases v
    · have hs : (pinRun depth (pinInit b) xs).PinState = true := by
        cases h : (pinRun depth (pinInit b) xs).PinState
        · exact absurd h.symm hv
        · rfl
      have e := hF.2 ⟨hw, hs⟩
      rcases hC with ⟨_, _, h3, _⟩ | ⟨e2, _⟩ | ⟨e2, _⟩
      · exact ⟨h3, by simpa using e⟩
      · rw [e] at e2
        cases e2
      · rw [e] at e2
        cases e2
    · have hs : (pinRun depth (pinInit b) xs).PinState = false := by
        cases h : (pinRun depth (pinInit b) xs).PinState
        · rfl
        · exact absurd h.symm hv
      have e := hR.2 ⟨hw, hs⟩
      rcases hC with ⟨e2, _⟩ | ⟨_, _, h3, _⟩ | ⟨e2, _⟩
      · rw [e] at e2
        cases e2
      · exact ⟨h3, by simpa using e⟩
      · rw [e] at e2
        cases e2
  · intro h
    rcases hC with ⟨e, _⟩ | ⟨e, _⟩ | ⟨_, h2, _⟩
    · rw [h] at e
      cases e
    · rw [h] at e
      cases e
    · exact h2

/-! ## Blocks of equal samples -/

theorem pinStep_falling_iff_bits (depth : Nat) (hd : depth ≤ 32) (c : Pin) (x : Bool) :
    (pinStep depth c x).2 = some Transition.Falling ↔
      ((∀ j, j < depth → (pinStep depth c x).1.PinBuf.testBit j = false) ∧
        c.PinState = true) := by
  rw [pinStep_falling_iff, pinStep_PinBuf, and_Mask_eq_zero_iff _ _ hd]

theorem pinStep_rising_iff_bits (depth : Nat) (hd : depth ≤ 32) (c : Pin) (x : Bool) :
    (pinStep depth c x).2 = some Transition.Rising ↔
      ((∀ j, j < depth → (pinStep depth c x).1.PinBuf.testBit j = true) ∧
        c.PinState = false) := by
  rw [pinStep_rising_iff, pinStep_PinBuf, Mask_eq_and_iff _ _ hd]

theorem pinStep_testBit_zero (depth : Nat) (c : Pin) (x : Bool) :
    (pinStep depth c x).1.PinBuf.testBit 0 = x := by
  rw [pinStep_PinBuf, testBit_shiftIn_zero]

theorem pinStep_testBit_succ (depth : Nat) (c : Pin) (x : Bool) (j : Nat) (hj : j + 1 < 32) :
    (pinStep depth c x).1.PinBuf.testBit (j + 1) = c.PinBuf.testBit j := by
  rw [pinStep_PinBuf, testBit_shiftIn_succ _ _ _ hj]

theorem pinTrace_append (depth : Nat) (xs ys : List Bool) :
    ∀ c : Pin, pinTrace depth c (xs ++ ys) =
      pinTrace depth c xs ++ pinTrace depth (pinRun depth c xs) ys := by
  induction xs with
  | nil => intro c; rfl
  | cons x xs ih =>
    intro c
    show (pinStep depth c x).2 :: pinTrace depth (pinStep depth c x).1 (xs ++ ys) = _
    rw [ih]
    rfl

theorem pinRun_append_list (depth : Nat) (c : Pin) (xs ys : List Bool) :
    pinRun depth c (xs ++ ys) = pinRun depth (pinRun depth c xs) ys := by
  simp [pinRun, List.foldl_append]

/-- While fewer than `depth` samples of the level opposite to the stable state have
arrived after a sample of the stable level, nothing is logged or counted. -/
theorem pinRun_pending (depth : Nat) (hd : depth ≤ 32) (c : Pin) (v : Bool)
    (hs : c.PinState = !v) (hb : c.PinBuf.testBit 0 = !v) :
    ∀ m, m < depth →
      (pinRun depth c (List.replicate m v)).PinState = (!v) ∧
      (pinRun depth c (List.replicate m v)).PinCount = c.PinCount ∧
      (∀ j, j < m → (pinRun depth c (List.replicate m v)).PinBuf.testBit j = v) ∧
      (pinRun depth c (List.replicate m v)).PinBuf.testBit m = (!v) ∧
      pinTrace depth c (List.replicate m v) = List.replicate m none := by
  intro m
  induction m with
  | zero =>
    intro _
    exact ⟨hs, rfl, fun j hj => absurd hj (Nat.not_lt_zero j), hb, rfl⟩
  | succ m ih =>
    intro hm
    obtain ⟨i1, i2, i3, i4, i5⟩ := ih (by omega)
    have hbit : (pinStep depth (pinRun depth c (List.replicate m v)) v).1.PinBuf.testBit (m + 1)
        = (!v) := by
      rw [pinStep_testBit_succ _ _ _ _ (by omega), i4]
    have hnone : (pinStep depth (pinRun depth c (List.replicate m v)) v).2 = none := by
      rcases pinStep_cases depth (pinRun depth c (List.replicate m v)) v with
        ⟨e, _⟩ | ⟨e, _⟩ | ⟨e, _⟩
      · have h := (pinStep_falling_iff_bits depth hd _ _).1 e
        have h1 := h.1 (m + 1) hm
        have h2 := h.2
        rw [hbit] at h1
        rw [i1] at h2
        cases v <;> simp at h1 h2
      · have h := (pinStep_rising_iff_bits depth hd _ _).1 e
        have h1 := h.1 (m + 1) hm
        have h2 := h.2
        rw [hbit] at h1
        rw [i1] at h2
        cases v <;> simp at h1 h2
      · exact e
    rw [List.replicate_succ', pinRun_append, pinTrace_append]
    rcases pinStep_cases depth (pinRun depth c (List.replicate m v)) v with
      ⟨e, _⟩ | ⟨e, _⟩ | ⟨_, e1, e2⟩
    · rw [hnone] at e
      cases e
    · rw [hnone] at e
      cases e
    · refine ⟨by rw [e1, i1], by rw [e2, i2], ?_, hbit, ?_⟩
      · intro j hj
        cases j with
        | zero => exact pinStep_testBit_zero _ _ _
        | succ k =>
          rw [pinStep_testBit_succ _ _ _ _ (by omega)]
          exact i3 k (by omega)
      · rw [i5]
        simp only [pinTrace, hnone]
        rw [← List.replicate_succ']

/-- A block of `depth` samples of the level opposite to the stable state, after a
sample of the stable level, is counted once, on its last sample. -/
theorem pinRun_block (depth : Nat) (h0 : 0 < depth) (hd : depth ≤ 32) (c : Pin) (v : Bool)
    (hs : c.PinState = !v) (hb : c.PinBuf.testBit 0 = !v) :
    (pinRun depth c (List.replicate depth v)).PinState = v ∧
    (pinRun depth c (List.replicate depth v)).PinCount = (c.PinCount + 1) % U32 ∧
    (pinRun depth c (List.replicate depth v)).PinBuf.testBit 0 = v ∧
    pinTrace depth c (List.replicate depth v) =
      List.replicate (depth - 1) none ++
        [some (if v = true then Transition.Rising else Transition.Falling)] := by
  obtain ⟨m, rfl⟩ : ∃ m, depth = m + 1 := ⟨depth - 1, by omega⟩
  obtain ⟨i1, i2, i3, _, i5⟩ := pinRun_pending (m + 1) hd c v hs hb m (by omega)
  have hbits : ∀ j, j < m + 1 →
      (pinStep (m + 1) (pinRun (m + 1) c (List.replicate m v)) v).1.PinBuf.testBit j = v := by
    intro j hj
    cases j with
    | zero => exact pinStep_testBit_zero _ _ _
    | succ k =>
      rw [pinStep_testBit_succ _ _ _ _ (by omega)]
      exact i3 k (by omega)
  have hev : (pinStep (m + 1) (pinRun (m + 1) c (List.replicate m v)) v).2 =
      some (if v = true then Transition.Rising else Transition.Falling) := by
    cases v
    · exact (pinStep_falling_iff_bits (m + 1) hd _ _).2 ⟨hbits, by simpa using i1⟩
    · exact (pinStep_rising_iff_bits (m + 1) hd _ _).2 ⟨hbits, by simpa using i1⟩
  rw [List.replicate_succ', pinRun_append, pinTrace_append, i5]
  simp only [Nat.add_sub_cancel, pinTrace, hev]
  refine ⟨?_, ?_, pinStep_testBit_zero _ _ _, trivial⟩
  · rcases pinStep_cases (m + 1) (pinRun (m + 1) c (List.replicate m v)) v with
      ⟨e, _, e1, _⟩ | ⟨e, _, e1, _⟩ | ⟨e, _⟩
    · rw [hev] at e
      cases v <;> simp at e
      exact e1
    · rw [hev] at e
      cases v <;> simp at e
      exact e1
    · rw [hev] at e
      cases e
  · rcases pinStep_cases (m + 1) (pinRun (m + 1) c (List.replicate m v)) v with
      ⟨_, _, _, e2⟩ | ⟨_, _, _, e2⟩ | ⟨e, _⟩
    · rw [e2, i2]
    · rw [e2, i2]
    · rw [hev] at e
      cases e

theorem pinRun_PinCount_lt (depth : Nat) (b : Bool) (xs : List Bool) :
    (pinRun depth (pinInit b) xs).PinCount < U32 := by
  induction xs using List.reverseRecOn with
  | nil => exact Nat.pos_pow_of_pos 32 (by decide)
  | append_singleton xs x ih =>
    rw [pinRun_append]
    rcases pinStep_cases depth (pinRun depth (pinInit b) xs) x with
      ⟨_, _, _, e⟩ | ⟨_, _, _, e⟩ | ⟨_, _, e⟩
    · rw [e]
      exact Nat.mod_lt _ (Nat.pos_pow_of_pos 32 (by decide))
    · rw [e]
      exact Nat.mod_lt _ (Nat.pos_pow_of_pos 32 (by decide))
    · rw [e]
      exact ih

/-- After `n` alternating blocks from a low pin, the stable state is high exactly
when `n` is odd, the counter is `n` modulo `2 ^ 32`, and `n` transitions were logged. -/
theorem toggleSamples_run (depth : Nat) (h0 : 0 < depth) (hd : depth ≤ 32) (n : Nat) :
    (pinRun depth (pinInit false) (toggleSamples depth n)).PinState = decide (n % 2 = 1) ∧
    (pinRun depth (pinInit false) (toggleSamples depth n)).PinCount = n % U32 ∧
    (pinRun depth (pinInit false) (toggleSamples depth n)).PinBuf.testBit 0
      = decide (n % 2 = 1) ∧
    (pinTrace depth (pinInit false) (toggleSamples depth n)).countP (fun e => e.isSome) = n := by
  induction n with
  | zero => exact ⟨rfl, rfl, Nat.zero_testBit 0, rfl⟩
  | succ n ih =>
    obtain ⟨i1, i2, i3, i4⟩ := ih
    have hv : decide (n % 2 = 1) = !decide (n % 2 = 0) := by
      rcases Nat.mod_two_eq_zero_or_one n with h | h <;> simp [h]
    obtain ⟨b1, b2, b3, b4⟩ := pinRun_block depth h0 hd
      (pinRun depth (pinInit false) (toggleSamples depth n)) (decide (n % 2 = 0))
      (by rw [i1, hv]) (by rw [i3, hv])
    have hv2 : decide (n % 2 = 0) = decide ((n + 1) % 2 = 1) := by
      rcases Nat.mod_two_eq_zero_or_one n with h | h <;> simp [h, Nat.add_mod]
    simp only [toggleSamples]
    rw [pinRun_append_list, pinTrace_append, b1, b2, b3, b4, i2, List.countP_append, i4]
    refine ⟨hv2, ?_, hv2, ?_⟩
    · unfold U32
      omega
    · simp [List.countP_append, List.countP_replicate]

theorem rt_events_pin (depth : Nat) (ss : List (Fin SENSE_PIN_NUM → Bool))
    (i : Fin SENSE_PIN_NUM) :
    ∀ st : RtState, (rt_events depth st ss).map (fun e => e i) =
      pinTrace depth (st.pin i) (ss.map (fun s => s i)) := by
  induction ss with
  | nil => intro st; rfl
  | cons s ss ih =>
    intro st
    simp only [rt_events, List.map_cons, pinTrace, ih, rt_cycle_event, rt_cycle_pin]

theorem accepted_eq (depth : Nat) (st : RtState) (ss : List (Fin SENSE_PIN_NUM → Bool))
    (i : Fin SENSE_PIN_NUM) :
    accepted i (rt_events depth st ss) =
      (pinTrace depth (st.pin i) (ss.map (fun s => s i))).countP (fun e => e.isSome) := by
  rw [← rt_events_pin, List.countP_map]
  rfl

theorem onAllPins_map (xs : List Bool) (i : Fin SENSE_PIN_NUM) :
    (onAllPins xs).map (fun s => s i) = xs := by
  simp [onAllPins, List.map_map, Function.comp_def]

/-- The counter of one channel counts the logged transitions modulo `2 ^ 32`. -/
theorem pinRun_PinCount_eq (depth : Nat) (b : Bool) (xs : List Bool) :
    (pinRun depth (pinInit b) xs).PinCount =
      (pinTrace depth (pinInit b) xs).countP (fun e => e.isSome) % U32 := by
  induction xs using List.reverseRecOn with
  | nil => rfl
  | append_singleton xs x ih =>
    rw [pinRun_append, pinTrace_append, List.countP_append]
    simp only [pinTrace, List.countP_cons, List.countP_nil]
    rcases pinStep_cases depth (pinRun depth (pinInit b) xs) x with
      ⟨e1, _, _, e⟩ | ⟨e1, _, _, e⟩ | ⟨e1, _, e⟩
    · rw [e, e1, ih]
      simp [Nat.add_mod]
    · rw [e, e1, ih]
      simp [Nat.add_mod]
    · rw [e, e1, ih]
      simp

/-! ## Properties of the debounce filter in `rt_task` -/

/-- C1: for every initial level and every sample sequence of a channel, with the
filter depth `SENSE_DEPTH`, the step for a sample logs a transition if and only if
the most recent `SENSE_DEPTH` samples (the current one included, the history
seeded with the initial level) are all equal and differ from the stable state
held before the sample; the new stable state is then that level, rising for
high and falling for low, and without a transition the stable state is kept. -/
theorem debounce_accepts_iff_unanimous (level : Fin SENSE_PIN_NUM → Bool)
    (ss : List (Fin SENSE_PIN_NUM → Bool)) (s : Fin SENSE_PIN_NUM → Bool)
    (i : Fin SENSE_PIN_NUM) :
    ((((rt_cycle SENSE_DEPTH (rt_run SENSE_DEPTH level ss) s).2 i).isSome = true ↔
        ∃ v, (∀ y ∈ recentSamples SENSE_DEPTH (level i) ((ss ++ [s]).map (fun t => t i)), y = v) ∧
          v ≠ (rt_run SENSE_DEPTH level ss).PinState i) ∧
      (∀ v, (∀ y ∈ recentSamples SENSE_DEPTH (level i) ((ss ++ [s]).map (fun t => t i)), y = v) →
          v ≠ (rt_run SENSE_DEPTH level ss).PinState i →
          (rt_cycle SENSE_DEPTH (rt_run SENSE_DEPTH level ss) s).1.PinState i = v ∧
            (rt_cycle SENSE_DEPTH (rt_run SENSE_DEPTH level ss) s).2 i =
              some (if v = true then Transition.Rising else Transition.Falling)) ∧
      ((rt_cycle SENSE_DEPTH (rt_run SENSE_DEPTH level ss) s).2 i = none →
          (rt_cycle SENSE_DEPTH (rt_run SENSE_DEPTH level ss) s).1.PinState i =
            (rt_run SENSE_DEPTH level ss).PinState i)) := by
  have h := pin_accept_spec SENSE_DEPTH (by decide) (level i) (ss.map (fun t => t i)) (s i)
  have e1 : (rt_cycle SENSE_DEPTH (rt_run SENSE_DEPTH level ss) s).1.PinState i =
      ((rt_cycle SENSE_DEPTH (rt_run SENSE_DEPTH level ss) s).1.pin i).PinState := rfl
  have e2 : (rt_run SENSE_DEPTH level ss).PinState i =
      ((rt_run SENSE_DEPTH level ss).pin i).PinState := rfl
  rw [e1, e2, rt_cycle_event, rt_cycle_pin, rt_run_pin, List.map_append, List.map_singleton]
  exact h

/-! ## Start-up -/

/-- No transition is logged for a sample when some position of the window holds the
initial level and the stable state is still the initial level. -/
theorem pin_no_transition (depth : Nat) (hd : depth ≤ 32) (b : Bool) (xs : List Bool) (x : Bool)
    (hstate : (pinRun depth (pinInit b) xs).PinState = b) (j : Nat) (hj : j < depth)
    (hb : (xs ++ [x]).reverse.getD j b = b) :
    (pinStep depth (pinRun depth (pinInit b) xs) x).2 = none := by
  rcases pinStep_cases depth (pinRun depth (pinInit b) xs) x with ⟨e, _⟩ | ⟨e, _⟩ | ⟨e, _⟩
  · obtain ⟨hw, hs⟩ := (pin_falling_iff depth hd b xs x).1 e
    have h1 := (recentSamples_all_iff depth b false _).1 hw j hj
    rw [hb] at h1
    rw [hstate, h1] at hs
    cases hs
  · obtain ⟨hw, hs⟩ := (pin_rising_iff depth hd b xs x).1 e
    have h1 := (recentSamples_all_iff depth b true _).1 hw j hj
    rw [hb] at h1
    rw [hstate, h1] at hs
    cases hs
  · exact e

theorem pinStep_none (depth : Nat) (c : Pin) (x : Bool) (h : (pinStep depth c x).2 = none) :
    (pinStep depth c x).1.PinState = c.PinState ∧ (pinStep depth c x).1.PinCount = c.PinCount := by
  rcases pinStep_cases depth c x with ⟨e, _⟩ | ⟨e, _⟩ | ⟨_, h1, h2⟩
  · rw [h] at e
    cases e
  · rw [h] at e
    cases e
  · exact ⟨h1, h2⟩

/-- While every sample equals the initial level, nothing is logged or counted. -/
theorem pin_quiet_constant (depth : Nat) (h0 : 0 < depth) (hd : depth ≤ 32) (b : Bool)
    (xs : List Bool) :
    (∀ x ∈ xs, x = b) →
      (pinRun depth (pinInit b) xs).PinState = b ∧
      (pinRun depth (pinInit b) xs).PinCount = 0 ∧
      pinTrace depth (pinInit b) xs = List.replicate xs.length none := by
  induction xs using List.reverseRecOn with
  | nil =>
    intro _
    exact ⟨rfl, rfl, rfl⟩
  | append_singleton xs x ih =>
    intro hx
    obtain ⟨i1, i2, i3⟩ := ih (fun y hy => hx y (List.mem_append_left _ hy))
    have hxb : x = b := hx x (List.mem_append_right _ (List.mem_singleton_self x))
    have hnone := pin_no_transition depth hd b xs x i1 0 h0 (by simp [hxb])
    obtain ⟨s1, s2⟩ := pinStep_none depth _ x hnone
    rw [pinRun_append, pinTrace_append, i3, s1, s2, i1, i2]
    refine ⟨rfl, rfl, ?_⟩
    simp only [pinTrace, hnone, List.length_append, List.length_singleton]
    rw [← List.replicate_succ']

/-- During the first `depth - 1` samples nothing is logged or counted. -/
theorem pin_quiet_prefix (depth : Nat) (hd : depth ≤ 32) (b : Bool) (xs : List Bool) :
    xs.length < depth →
      (pinRun depth (pinInit b) xs).PinState = b ∧
      (pinRun depth (pinInit b) xs).PinCount = 0 ∧
      pinTrace depth (pinInit b) xs = List.replicate xs.length none := by
  induction xs using List.reverseRecOn with
  | nil =>
    intro _
    exact ⟨rfl, rfl, rfl⟩
  | append_singleton xs x ih =>
    intro hx
    have hlen : xs.length + 1 < depth := by simpa using hx
    obtain ⟨i1, i2, i3⟩ := ih (by omega)
    have hnone := pin_no_transition depth hd b xs x i1 (xs.length + 1) hlen
      (List.getD_eq_default _ _ (by simp))
    obtain ⟨s1, s2⟩ := pinStep_none depth _ x hnone
    rw [pinRun_append, pinTrace_append, i3, s1, s2, i1, i2]
    refine ⟨rfl, rfl, ?_⟩
    simp only [pinTrace, hnone, List.length_append, List.length_singleton]
    rw [← List.replicate_succ']

theorem rt_events_take (depth : Nat) (ss : List (Fin SENSE_PIN_NUM → Bool)) :
    ∀ (k : Nat) (st : RtState),
      (rt_events depth st ss).take k = rt_events depth st (ss.take k) := by
  induction ss with
  | nil =>
    intro k st
    simp [rt_events]
  | cons s ss ih =>
    intro k st
    cases k with
    | zero => rfl
    | succ k =>
      show (rt_cycle depth st s).2 :: (rt_events depth (rt_cycle depth st s).1 ss).take k = _
      rw [ih]
      rfl

theorem rt_events_none_of_trace (depth : Nat) (level : Fin SENSE_PIN_NUM → Bool)
    (ss : List (Fin SENSE_PIN_NUM → Bool)) (i : Fin SENSE_PIN_NUM)
    (h : pinTrace depth (pinInit (level i)) (ss.map (fun s => s i)) =
      List.replicate (ss.map (fun s => s i)).length none) :
    ∀ e ∈ rt_events depth (rt_init level) ss, e i = none := by
  intro e he
  have hm : e i ∈ (rt_events depth (rt_init level) ss).map (fun e => e i) :=
    List.mem_map_of_mem (fun e => e i) he
  have e3 : (rt_init level).pin i = pinInit (level i) := rfl
  rw [rt_events_pin, e3, h] at hm
  exact (List.mem_replicate.1 hm).2

/-! ## Properties of the transition counters -/

/-- The counter of a pin that starts low, after `2 ^ 32 - 1` alternating blocks and
five low samples, and after one more low sample. -/
theorem wrap_pin_counts :
    (pinRun SENSE_DEPTH (pinInit false)
        (toggleSamples SENSE_DEPTH 4294967295 ++ List.replicate 5 false)).PinCount
      = 4294967295 ∧
    (pinRun SENSE_DEPTH (pinInit false)
        ((toggleSamples SENSE_DEPTH 4294967295 ++ List.replicate 5 false) ++ [false])).PinCount
      = 0 := by
  generalize hxs : toggleSamples SENSE_DEPTH 4294967295 = xs
  obtain ⟨t1, t2, t3, _⟩ := toggleSamples_run SENSE_DEPTH (by decide) (by decide) 4294967295
  rw [hxs] at t1 t2 t3
  have hs : (pinRun SENSE_DEPTH (pinInit false) xs).PinState = !false := by rw [t1]; decide
  have hb : (pinRun SENSE_DEPTH (pinInit false) xs).PinBuf.testBit 0 = !false := by
    rw [t3]; decide
  obtain ⟨_, p2, _⟩ := pinRun_pending SENSE_DEPTH (by decide) _ false hs hb 5 (by decide)
  obtain ⟨_, b2, _⟩ := pinRun_block SENSE_DEPTH (by decide) (by decide) _ false hs hb
  have hsix : List.replicate 5 false ++ [false] = List.replicate SENSE_DEPTH false := by decide
  rw [List.append_assoc, hsix, pinRun_append_list, pinRun_append_list, p2, b2, t2]
  exact ⟨by decide, by decide⟩

/-- C2, counterexample: with both pins low at initialisation and toggling in blocks of
six equal samples, the cycle that completes transition number `2 ^ 32` takes the
counter of channel 0, local and published, from `4294967295` down to `0`. -/
theorem counter_decreases_at_wrap :
    (rt_run SENSE_DEPTH (fun _ => false)
        (onAllPins (toggleSamples SENSE_DEPTH 4294967295 ++ List.replicate 5 false))).PinCount 0
      = 4294967295 ∧
    (rt_run SENSE_DEPTH (fun _ => false)
        (onAllPins (toggleSamples SENSE_DEPTH 4294967295 ++ List.replicate 5 false))).sense_counter 0
      = 4294967295 ∧
    (rt_cycle SENSE_DEPTH
        (rt_run SENSE_DEPTH (fun _ => false)
          (onAllPins (toggleSamples SENSE_DEPTH 4294967295 ++ List.replicate 5 false)))
        (fun _ => false)).1.PinCount 0 = 0 ∧
    (rt_cycle SENSE_DEPTH
        (rt_run SENSE_DEPTH (fun _ => false)
          (onAllPins (toggleSamples SENSE_DEPTH 4294967295 ++ List.replicate 5 false)))
        (fun _ => false)).1.sense_counter 0 = 0 := by
  rw [rt_run_sense_counter, rt_cycle_sense_counter, rt_run_PinCount, rt_cycle_PinCount,
    onAllPins_map, wrap_pin_counts.1, wrap_pin_counts.2]
  exact ⟨rfl, rfl, rfl, rfl⟩

/-- C2, amended: over a sampler cycle the counter of a channel, local and published,
does not decrease, except in a cycle that logs a transition for the channel while
its counter is `4294967295`, where the 32-bit counter wraps to `0`. -/
theorem counter_monotone_until_wrap (level : Fin SENSE_PIN_NUM → Bool)
    (ss : List (Fin SENSE_PIN_NUM → Bool)) (s : Fin SENSE_PIN_NUM → Bool)
    (i : Fin SENSE_PIN_NUM) :
    ((rt_run SENSE_DEPTH level ss).PinCount i ≤
          (rt_cycle SENSE_DEPTH (rt_run SENSE_DEPTH level ss) s).1.PinCount i ∨
        ((rt_run SENSE_DEPTH level ss).PinCount i = 4294967295 ∧
          (rt_cycle SENSE_DEPTH (rt_run SENSE_DEPTH level ss) s).1.PinCount i = 0 ∧
          ((rt_cycle SENSE_DEPTH (rt_run SENSE_DEPTH level ss) s).2 i).isSome = true)) ∧
    ((rt_run SENSE_DEPTH level ss).sense_counter i ≤
          (rt_cycle SENSE_DEPTH (rt_run SENSE_DEPTH level ss) s).1.sense_counter i ∨
        ((rt_run SENSE_DEPTH level ss).sense_counter i = 4294967295 ∧
          (rt_cycle SENSE_DEPTH (rt_run SENSE_DEPTH level ss) s).1.sense_counter i = 0 ∧
          ((rt_cycle SENSE_DEPTH (rt_run SENSE_DEPTH level ss) s).2 i).isSome = true)) := by
  have key : (rt_run SENSE_DEPTH level ss).PinCount i ≤
        (rt_cycle SENSE_DEPTH (rt_run SENSE_DEPTH level ss) s).1.PinCount i ∨
      ((rt_run SENSE_DEPTH level ss).PinCount i = 4294967295 ∧
        (rt_cycle SENSE_DEPTH (rt_run SENSE_DEPTH level ss) s).1.PinCount i = 0 ∧
        ((rt_cycle SENSE_DEPTH (rt_run SENSE_DEPTH level ss) s).2 i).isSome = true) := by
    have e1 : (rt_cycle SENSE_DEPTH (rt_run SENSE_DEPTH level ss) s).1.PinCount i =
        ((rt_cycle SENSE_DEPTH (rt_run SENSE_DEPTH level ss) s).1.pin i).PinCount := rfl
    have e2 : (rt_run SENSE_DEPTH level ss).PinCount i =
        ((rt_run SENSE_DEPTH level ss).pin i).PinCount := rfl
    have hlt : ((rt_run SENSE_DEPTH level ss).pin i).PinCount < U32 := by
      rw [rt_run_pin]
      exact pinRun_PinCount_lt _ _ _
    rw [e1, e2, rt_cycle_pin, rt_cycle_event]
    unfold U32 at hlt
    rcases pinStep_cases SENSE_DEPTH ((rt_run SENSE_DEPTH level ss).pin i) (s i) with
      ⟨e, _, _, h⟩ | ⟨e, _, _, h⟩ | ⟨_, _, h⟩
    · rw [h, e]
      unfold U32
      simp only [Option.isSome_some, and_true]
      omega
    · rw [h, e]
      unfold U32
      simp only [Option.isSome_some, and_true]
      omega
    · rw [h]
      exact Or.inl (Nat.le_refl _)
  refine ⟨key, ?_⟩
  rw [rt_run_sense_counter, rt_cycle_sense_counter]
  exact key

/-- C3, counterexample: with both pins low at initialisation, `2 ^ 32` alternating
blocks of six equal samples log `4294967296` transitions for channel 0 and leave
its counter at `0`. -/
theorem counter_differs_from_accepted_at_wrap :
    accepted 0 (rt_events SENSE_DEPTH (rt_init (fun _ => false))
        (onAllPins (toggleSamples SENSE_DEPTH 4294967296))) = 4294967296 ∧
    (rt_run SENSE_DEPTH (fun _ => false)
        (onAllPins (toggleSamples SENSE_DEPTH 4294967296))).PinCount 0 = 0 := by
  obtain ⟨_, t2, _, t4⟩ := toggleSamples_run SENSE_DEPTH (by decide) (by decide) 4294967296
  have e3 : (rt_init (fun _ => false)).pin 0 = pinInit false := rfl
  rw [accepted_eq, rt_run_PinCount, onAllPins_map, e3, t4, t2]
  exact ⟨rfl, by decide⟩

/-- C3, amended: in a sampler cycle the local counter of a channel becomes its
successor modulo `2 ^ 32` when a transition is logged for the channel and is
unchanged otherwise; after any sample sequence it equals the number of logged
transitions modulo `2 ^ 32`. -/
theorem counter_counts_accepted_mod (level : Fin SENSE_PIN_NUM → Bool)
    (ss : List (Fin SENSE_PIN_NUM → Bool)) (s : Fin SENSE_PIN_NUM → Bool)
    (i : Fin SENSE_PIN_NUM) :
    (((rt_cycle SENSE_DEPTH (rt_run SENSE_DEPTH level ss) s).2 i).isSome = true →
        (rt_cycle SENSE_DEPTH (rt_run SENSE_DEPTH level ss) s).1.PinCount i =
          ((rt_run SENSE_DEPTH level ss).PinCount i + 1) % 2 ^ 32) ∧
    ((rt_cycle SENSE_DEPTH (rt_run SENSE_DEPTH level ss) s).2 i = none →
        (rt_cycle SENSE_DEPTH (rt_run SENSE_DEPTH level ss) s).1.PinCount i =
          (rt_run SENSE_DEPTH level ss).PinCount i) ∧
    (rt_run SENSE_DEPTH level ss).PinCount i =
      accepted i (rt_events SENSE_DEPTH (rt_init level) ss) % 2 ^ 32 := by
  have e1 : (rt_cycle SENSE_DEPTH (rt_run SENSE_DEPTH level ss) s).1.PinCount i =
      ((rt_cycle SENSE_DEPTH (rt_run SENSE_DEPTH level ss) s).1.pin i).PinCount := rfl
  have e2 : (rt_run SENSE_DEPTH level ss).PinCount i =
      ((rt_run SENSE_DEPTH level ss).pin i).PinCount := rfl
  have e3 : (rt_init level).pin i = pinInit (level i) := rfl
  rw [e1, e2, rt_cycle_pin, rt_cycle_event, accepted_eq, e3]
  refine ⟨?_, ?_, ?_⟩
  · intro h
    rcases pinStep_cases SENSE_DEPTH ((rt_run SENSE_DEPTH level ss).pin i) (s i) with
      ⟨_, _, _, e⟩ | ⟨_, _, _, e⟩ | ⟨e, _⟩
    · exact e
    · exact e
    · rw [e] at h
      cases h
  · intro h
    rcases pinStep_cases SENSE_DEPTH ((rt_run SENSE_DEPTH level ss).pin i) (s i) with
      ⟨e, _⟩ | ⟨e, _⟩ | ⟨_, _, e⟩
    · rw [e] at h
      cases h
    · rw [e] at h
      cases h
    · exact e
  · rw [rt_run_pin]
    exact pinRun_PinCount_eq _ _ _

/-! ## The reporter cycle -/

theorem app_compare_eq (P : Fin 2 → Fin SENSE_PIN_NUM → Nat) :
    app_compare P =
      (if Function.update P 1 (Function.update (P 1) 0 (P 0 0)) 0 1 ≠
            Function.update P 1 (Function.update (P 1) 0 (P 0 0)) 1 1 then true
        else if P 0 0 ≠ P 1 0 then true else false,
        Function.update (Function.update P 1 (Function.update (P 1) 0 (P 0 0))) 1
          (Function.update (Function.update P 1 (Function.update (P 1) 0 (P 0 0)) 1) 1
            (Function.update P 1 (Function.update (P 1) 0 (P 0 0)) 0 1))) := by
  rfl

/-- The comparison loop sets `change` exactly when some pin differs. -/
theorem app_compare_change (P : Fin 2 → Fin SENSE_PIN_NUM → Nat) :
    (app_compare P).1 = true ↔ ∃ i, P 0 i ≠ P 1 i := by
  rw [app_compare_eq]
  simp only [Fin.exists_fin_two]
  by_cases h0 : P 0 0 = P 1 0 <;> by_cases h1 : P 0 1 = P 1 1 <;>
    simp [Function.update, h0, h1]

/-- The comparison loop leaves the current snapshot in place. -/
theorem app_compare_cur (P : Fin 2 → Fin SENSE_PIN_NUM → Nat) :
    (app_compare P).2 0 = P 0 := by
  rw [app_compare_eq]
  funext i
  simp [Function.update]

/-- The comparison loop copies the current snapshot into the previous one. -/
theorem app_compare_prev (P : Fin 2 → Fin SENSE_PIN_NUM → Nat) :
    (app_compare P).2 1 = P 0 := by
  rw [app_compare_eq]
  funext i
  fin_cases i <;> simp [Function.update]

theorem update_cur_zero (P : Fin 2 → Fin SENSE_PIN_NUM → Nat) (v : Fin SENSE_PIN_NUM → Nat) :
    Function.update P 0 v 0 = v := by
  simp

theorem update_cur_one (P : Fin 2 → Fin SENSE_PIN_NUM → Nat) (v : Fin SENSE_PIN_NUM → Nat) :
    Function.update P 0 v 1 = P 1 := by
  simp [Function.update]

theorem app_cycle_pos (pd : Nat → Nat) (st : AppState) (inp : AppInput)
    (h : (if delta pd inp.now st.LastPub > SENSE_PUB_MAX then true
      else (app_compare (Function.update st.PinCount 0 inp.sense_counter)).1) = true) :
    app_cycle pd st inp =
      ({ PinCount := (app_compare (Function.update st.PinCount 0 inp.sense_counter)).2,
         LastPub := inp.pubTick },
        some { msg := build_msg
                 ((app_compare (Function.update st.PinCount 0 inp.sense_counter)).2 0),
               id := inp.id }) := by
  unfold app_cycle
  dsimp only
  rw [if_pos h]

theorem app_cycle_neg (pd : Nat → Nat) (st : AppState) (inp : AppInput)
    (h : ¬ (if delta pd inp.now st.LastPub > SENSE_PUB_MAX then true
      else (app_compare (Function.update st.PinCount 0 inp.sense_counter)).1) = true) :
    app_cycle pd st inp =
      ({ PinCount := (app_compare (Function.update st.PinCount 0 inp.sense_counter)).2,
         LastPub := st.LastPub }, none) := by
  unfold app_cycle
  dsimp only
  rw [if_neg h]

theorem app_change_iff (pd : Nat → Nat) (st : AppState) (inp : AppInput) :
    (if delta pd inp.now st.LastPub > SENSE_PUB_MAX then true
      else (app_compare (Function.update st.PinCount 0 inp.sense_counter)).1) = true ↔
      ((∃ i, inp.sense_counter i ≠ st.PinCount 1 i) ∨
        SENSE_PUB_MAX < delta pd inp.now st.LastPub) := by
  have hc := app_compare_change (Function.update st.PinCount 0 inp.sense_counter)
  rw [update_cur_zero, update_cur_one] at hc
  by_cases hd : delta pd inp.now st.LastPub > SENSE_PUB_MAX
  · rw [if_pos hd]
    exact ⟨fun _ => Or.inr hd, fun _ => rfl⟩
  · rw [if_neg hd, hc]
    exact ⟨Or.inl, fun h => h.elim id (fun h => absurd h hd)⟩

/-- A reporter cycle publishes exactly when a pin changed or `delta` exceeds the maximum. -/
theorem app_cycle_isSome (pd : Nat → Nat) (st : AppState) (inp : AppInput) :
    (app_cycle pd st inp).2.isSome = true ↔
      ((∃ i, inp.sense_counter i ≠ st.PinCount 1 i) ∨
        SENSE_PUB_MAX < delta pd inp.now st.LastPub) := by
  rw [← app_change_iff]
  by_cases h : (if delta pd inp.now st.LastPub > SENSE_PUB_MAX then true
      else (app_compare (Function.update st.PinCount 0 inp.sense_counter)).1) = true
  · rw [app_cycle_pos pd st inp h]
    exact ⟨fun _ => h, fun _ => rfl⟩
  · rw [app_cycle_neg pd st inp h]
    exact ⟨fun h' => (nomatch h'), fun h' => absurd h' h⟩

/-- After a reporter cycle both snapshots hold the values copied in that cycle. -/
theorem app_cycle_PinCount (pd : Nat → Nat) (st : AppState) (inp : AppInput) :
    (app_cycle pd st inp).1.PinCount 0 = inp.sense_counter ∧
      (app_cycle pd st inp).1.PinCount 1 = inp.sense_counter := by
  have h0 := app_compare_cur (Function.update st.PinCount 0 inp.sense_counter)
  have h1 := app_compare_prev (Function.update st.PinCount 0 inp.sense_counter)
  rw [update_cur_zero] at h0 h1
  by_cases h : (if delta pd inp.now st.LastPub > SENSE_PUB_MAX then true
      else (app_compare (Function.update st.PinCount 0 inp.sense_counter)).1) = true
  · rw [app_cycle_pos pd st inp h]
    exact ⟨h0, h1⟩
  · rw [app_cycle_neg pd st inp h]
    exact ⟨h0, h1⟩

/-- What a publishing cycle sends and stores, and what a silent cycle keeps. -/
theorem app_cycle_cases (pd : Nat → Nat) (st : AppState) (inp : AppInput) :
    ((app_cycle pd st inp).2 = some { msg := build_msg inp.sense_counter, id := inp.id } ∧
        (app_cycle pd st inp).1.LastPub = inp.pubTick) ∨
    ((app_cycle pd st inp).2 = none ∧ (app_cycle pd st inp).1.LastPub = st.LastPub) := by
  have h0 := app_compare_cur (Function.update st.PinCount 0 inp.sense_counter)
  rw [update_cur_zero] at h0
  by_cases h : (if delta pd inp.now st.LastPub > SENSE_PUB_MAX then true
      else (app_compare (Function.update st.PinCount 0 inp.sense_counter)).1) = true
  · rw [app_cycle_pos pd st inp h, h0]
    exact Or.inl ⟨rfl, rfl⟩
  · rw [app_cycle_neg pd st inp h]
    exact Or.inr ⟨rfl, rfl⟩

/-! ## Properties of the publish decision in `app_task` -/

/-- C5, the code at the failing input: with a tick of 10 ms, when the count of
channel 0 goes from `2147483647` to `2147483648` between two reporter cycles, the
cycle publishes a payload whose field `Sense0` reads `-2147483648`; when it goes
from 5 to 6 with channel 1 at 3, the fields read 6 and 3. -/
theorem payload_negative_from_2147483648 :
    (app_cycle (fun t => t * 1000 / 100)
        { PinCount := ![![2147483647, 0], ![2147483647, 0]], LastPub := 0 }
        { sense_counter := ![2147483648, 0], now := 100, id := 0, pubTick := 100 }).2 =
      some { msg := "\x7b \"Sense0\": -2147483648,  \"Sense1\": 0 \x7d", id := 0 } ∧
    (app_cycle (fun t => t * 1000 / 100)
        { PinCount := ![![5, 3], ![5, 3]], LastPub := 0 }
        { sense_counter := ![6, 3], now := 100, id := 0, pubTick := 100 }).2 =
      some { msg := "\x7b \"Sense0\": 6,  \"Sense1\": 3 \x7d", id := 0 } := by
  decide

/-- A publishing cycle among quiet ones: while the counters keep the values of the
previous snapshot, cycles whose `delta` is within the maximum publish nothing and
keep `LastPub`. -/
theorem app_run_quiet (pd : Nat → Nat) (quiet : List AppInput) :
    ∀ st : AppState,
      (∀ inp ∈ quiet, ∀ i, inp.sense_counter i = st.PinCount 1 i) →
      (∀ inp ∈ quiet, delta pd inp.now st.LastPub ≤ SENSE_PUB_MAX) →
      (app_run pd st quiet).2 = List.replicate quiet.length none ∧
      (app_run pd st quiet).1.LastPub = st.LastPub ∧
      (app_run pd st quiet).1.PinCount 1 = st.PinCount 1 := by
  induction quiet with
  | nil =>
    intro st _ _
    exact ⟨rfl, rfl, rfl⟩
  | cons inp rest ih =>
    intro st hc hd
    have hsame : inp.sense_counter = st.PinCount 1 :=
      funext (hc inp (List.mem_cons_self _ _))
    have hno : ¬ (app_cycle pd st inp).2.isSome = true := by
      rw [app_cycle_isSome]
      rintro (⟨i, hi⟩ | h)
      · exact hi (hc inp (List.mem_cons_self _ _) i)
      · exact absurd (hd inp (List.mem_cons_self _ _)) (not_le.mpr h)
    have hP := (app_cycle_PinCount pd st inp).2
    rcases app_cycle_cases pd st inp with ⟨e, _⟩ | ⟨e, hL⟩
    · rw [e] at hno
      exact absurd rfl hno
    · obtain ⟨r1, r2, r3⟩ := ih (app_cycle pd st inp).1
        (fun q hq i => by rw [hP, hsame]; exact hc q (List.mem_cons_of_mem _ hq) i)
        (fun q hq => by rw [hL]; exact hd q (List.mem_cons_of_mem _ hq))
      refine ⟨?_, ?_, ?_⟩
      · show (app_cycle pd st inp).2 :: (app_run pd (app_cycle pd st inp).1 rest).2 = _
        rw [e, r1]
        rfl
      · show (app_run pd (app_cycle pd st inp).1 rest).1.LastPub = _
        rw [r2, hL]
      · show (app_run pd (app_cycle pd st inp).1 rest).1.PinCount 1 = _
        rw [r3, hP, hsame]

theorem app_run_append (pd : Nat → Nat) (xs ys : List AppInput) :
    ∀ st : AppState,
      (app_run pd st (xs ++ ys)).1 = (app_run pd (app_run pd st xs).1 ys).1 ∧
      (app_run pd st (xs ++ ys)).2 =
        (app_run pd st xs).2 ++ (app_run pd (app_run pd st xs).1 ys).2 := by
  induction xs with
  | nil =>
    intro st
    exact ⟨rfl, rfl⟩
  | cons x xs ih =>
    intro st
    obtain ⟨h1, h2⟩ := ih (app_cycle pd st x).1
    refine ⟨?_, ?_⟩
    · show (app_run pd (app_cycle pd st x).1 (xs ++ ys)).1 = _
      rw [h1]
      rfl
    · show (app_cycle pd st x).2 :: (app_run pd (app_cycle pd st x).1 (xs ++ ys)).2 = _
      rw [h2]
      rfl

/-- A heartbeat among quiet cycles: while the shared counters keep the values of the
previous snapshot, the cycles whose `delta` is at most `SENSE_PUB_MAX` publish
nothing, the first cycle whose `delta` exceeds it sends the message built from
those values and sets `LastPub`, and a following cycle whose `delta` since then
is within `SENSE_PUB_MAX` publishes nothing. -/
theorem app_run_heartbeat (pdTICKS_TO_MS : Nat → Nat) (st : AppState)
    (quiet : List AppInput) (beat next : AppInput)
    (hq : ∀ inp ∈ quiet, ∀ i, inp.sense_counter i = st.PinCount 1 i)
    (hb : ∀ i, beat.sense_counter i = st.PinCount 1 i)
    (hn : ∀ i, next.sense_counter i = st.PinCount 1 i)
    (hquiet : ∀ inp ∈ quiet, delta pdTICKS_TO_MS inp.now st.LastPub ≤ SENSE_PUB_MAX)
    (hbeat : SENSE_PUB_MAX < delta pdTICKS_TO_MS beat.now st.LastPub)
    (hnext : delta pdTICKS_TO_MS next.now beat.pubTick ≤ SENSE_PUB_MAX) :
    (app_run pdTICKS_TO_MS st (quiet ++ [beat, next])).2 =
        List.replicate quiet.length none ++
          [some { msg := build_msg (st.PinCount 1), id := beat.id }, none] ∧
      (app_run pdTICKS_TO_MS st (quiet ++ [beat])).1.LastPub = beat.pubTick ∧
      (app_run pdTICKS_TO_MS st (quiet ++ [beat, next])).1.LastPub = beat.pubTick := by
  obtain ⟨q1, q2, q3⟩ := app_run_quiet pdTICKS_TO_MS quiet st hq hquiet
  generalize hst : (app_run pdTICKS_TO_MS st quiet).1 = sq at q2 q3
  have hbs : beat.sense_counter = st.PinCount 1 := funext hb
  have hns : next.sense_counter = st.PinCount 1 := funext hn
  have hpub : (app_cycle pdTICKS_TO_MS sq beat).2.isSome = true := by
    rw [app_cycle_isSome, q2]
    exact Or.inr hbeat
  have hPb := (app_cycle_PinCount pdTICKS_TO_MS sq beat).2
  obtain ⟨eb, lb⟩ : (app_cycle pdTICKS_TO_MS sq beat).2 =
        some { msg := build_msg beat.sense_counter, id := beat.id } ∧
      (app_cycle pdTICKS_TO_MS sq beat).1.LastPub = beat.pubTick := by
    rcases app_cycle_cases pdTICKS_TO_MS sq beat with h | ⟨e, _⟩
    · exact h
    · rw [e] at hpub
      cases hpub
  have hno : ¬ (app_cycle pdTICKS_TO_MS (app_cycle pdTICKS_TO_MS sq beat).1 next).2.isSome
      = true := by
    rw [app_cycle_isSome, lb, hPb, hbs, hns]
    rintro (⟨i, hi⟩ | h)
    · exact hi rfl
    · exact absurd hnext (not_le.mpr h)
  obtain ⟨en, ln⟩ : (app_cycle pdTICKS_TO_MS (app_cycle pdTICKS_TO_MS sq beat).1 next).2 = none ∧
      (app_cycle pdTICKS_TO_MS (app_cycle pdTICKS_TO_MS sq beat).1 next).1.LastPub =
        (app_cycle pdTICKS_TO_MS sq beat).1.LastPub := by
    rcases app_cycle_cases pdTICKS_TO_MS (app_cycle pdTICKS_TO_MS sq beat).1 next with
      ⟨e, _⟩ | h
    · rw [e] at hno
      exact absurd rfl hno
    · exact h
  refine ⟨?_, ?_, ?_⟩
  · rw [(app_run_append pdTICKS_TO_MS quiet [beat, next] st).2, q1, hst]
    show _ ++ [(app_cycle pdTICKS_TO_MS sq beat).2,
      (app_cycle pdTICKS_TO_MS (app_cycle pdTICKS_TO_MS sq beat).1 next).2] = _
    rw [eb, en, hbs]
  · rw [(app_run_append pdTICKS_TO_MS quiet [beat] st).1, hst]
    exact lb
  · rw [(app_run_append pdTICKS_TO_MS quiet [beat, next] st).1, hst]
    show (app_cycle pdTICKS_TO_MS (app_cycle pdTICKS_TO_MS sq beat).1 next).1.LastPub = _
    rw [ln, lb]

set_option maxRecDepth 4000 in
/-- C6, the code at the failing input: with a tick of 1 ms, `LastPub = 0` and the
counters unchanged at (2147483648, 0), the cycles at 29000 ms and 30000 ms are
silent, the cycle at 30001 ms makes the one publish and sets `LastPub`, and the
cycle at 31001 ms is silent; the payload of that publish reads `-2147483648`
for channel 0 where the unchanged count is 2147483648. -/
theorem heartbeat_payload_negative_from_2147483648 :
    (app_run (fun t => t * 1000 / 1000)
        { PinCount := ![![2147483648, 0], ![2147483648, 0]], LastPub := 0 }
        [{ sense_counter := ![2147483648, 0], now := 29000, id := 0, pubTick := 0 },
          { sense_counter := ![2147483648, 0], now := 30000, id := 0, pubTick := 0 },
          { sense_counter := ![2147483648, 0], now := 30001, id := 0, pubTick := 30002 },
          { sense_counter := ![2147483648, 0], now := 31001, id := 0, pubTick := 0 }]).2 =
      [none, none,
        some { msg := "\x7b \"Sense0\": -2147483648,  \"Sense1\": 0 \x7d", id := 0 }, none] ∧
    (app_run (fun t => t * 1000 / 1000)
        { PinCount := ![![2147483648, 0], ![2147483648, 0]], LastPub := 0 }
        [{ sense_counter := ![2147483648, 0], now := 29000, id := 0, pubTick := 0 },
          { sense_counter := ![2147483648, 0], now := 30000, id := 0, pubTick := 0 },
          { sense_counter := ![2147483648, 0], now := 30001, id := 0, pubTick := 30002 },
          { sense_counter := ![2147483648, 0], now := 31001, id := 0, pubTick := 0 }]).1.LastPub
      = 30002 := by
  decide

/-- C7, counterexample: with a tick of 10 ms, `LastPub = 0` and the count of channel
0 going from 0 to 1, the cycle at tick 100 attempts a publish; the transport
returns the failure id `-1`, and `LastPub` is nevertheless moved from 0 to the tick
count 101 read after the attempt. -/
theorem lastpub_updated_on_failed_publish :
    ((app_cycle (fun t => t * 1000 / 100)
        { PinCount := ![![0, 0], ![0, 0]], LastPub := 0 }
        { sense_counter := ![1, 0], now := 100, id := -1, pubTick := 101 }).2.map
          (fun q => q.id)) = some (-1) ∧
    (app_cycle (fun t => t * 1000 / 100)
        { PinCount := ![![0, 0], ![0, 0]], LastPub := 0 }
        { sense_counter := ![1, 0], now := 100, id := -1, pubTick := 101 }).1.LastPub = 101 ∧
    (app_cycle (fun t => t * 1000 / 100)
        { PinCount := ![![0, 0], ![0, 0]], LastPub := 0 }
        { sense_counter := ![1, 0], now := 100, id := -1, pubTick := 101 }).1.LastPub ≠
      ({ PinCount := ![![0, 0], ![0, 0]], LastPub := 0 } : AppState).LastPub := by
  decide

/-- C7, amended: in a reporter cycle that attempts a publish, `LastPub` is set to the
tick count read after the attempt whatever message id the transport returns, a
failure id included. -/
theorem lastpub_set_on_every_attempt (pdTICKS_TO_MS : Nat → Nat) (st : AppState)
    (inp : AppInput) (id : Int)
    (h : (app_cycle pdTICKS_TO_MS st inp).2.isSome = true) :
    (app_cycle pdTICKS_TO_MS st
        { sense_counter := inp.sense_counter, now := inp.now, id := id,
          pubTick := inp.pubTick }).2 =
      some { msg := build_msg inp.sense_counter, id := id } ∧
    (app_cycle pdTICKS_TO_MS st
        { sense_counter := inp.sense_counter, now := inp.now, id := id,
          pubTick := inp.pubTick }).1.LastPub = inp.pubTick := by
  have h2 : (app_cycle pdTICKS_TO_MS st
      { sense_counter := inp.sense_counter, now := inp.now, id := id,
        pubTick := inp.pubTick }).2.isSome = true := by
    rw [app_cycle_isSome] at h ⊢
    exact h
  rcases app_cycle_cases pdTICKS_TO_MS st
      { sense_counter := inp.sense_counter, now := inp.now, id := id,
        pubTick := inp.pubTick } with hc | ⟨e, _⟩
  · exact hc
  · rw [e] at h2
    cases h2

/-- C7, witness: the cycle of the counterexample publishes, so with the failure id
`-1` it sends the message with that id and sets `LastPub` to 101. -/
theorem lastpub_set_on_every_attempt_witness :
    (app_cycle (fun t => t * 1000 / 100)
        { PinCount := ![![0, 0], ![0, 0]], LastPub := 0 }
        { sense_counter := ![1, 0], now := 100, id := -1, pubTick := 101 }).2 =
      some { msg := build_msg ![1, 0], id := -1 } ∧
    (app_cycle (fun t => t * 1000 / 100)
        { PinCount := ![![0, 0], ![0, 0]], LastPub := 0 }
        { sense_counter := ![1, 0], now := 100, id := -1, pubTick := 101 }).1.LastPub = 101 :=
  lastpub_set_on_every_attempt (fun t => t * 1000 / 100)
    { PinCount := ![![0, 0], ![0, 0]], LastPub := 0 }
    { sense_counter := ![1, 0], now := 100, id := 0, pubTick := 101 } (-1) (by decide)

/-! ## The payload -/

theorem build_msg_eq (counts : Fin SENSE_PIN_NUM → Nat) :
    build_msg counts =
      ((("\x7b" ++ element 0 (counts 0)) ++ ", ") ++ element 1 (counts 1)) ++ " \x7d" := by
  rfl

theorem toInt32_of_lt (n : Nat) (h : n < 2 ^ 31) : toInt32 n = (n : Int) := by
  have h1 : n % U32 = n := Nat.mod_eq_of_lt (by unfold U32; omega)
  unfold toInt32
  rw [h1, if_pos h]

theorem payload_assoc (x y : String) :
    (((("\x7b" ++ (" \"Sense" ++ "0" ++ "\": " ++ x)) ++ ", ") ++
        (" \"Sense" ++ "1" ++ "\": " ++ y)) ++ " \x7d")
      = "\x7b \"Sense0\": " ++ x ++ ",  \"Sense1\": " ++ y ++ " \x7d" := by
  apply String.ext
  simp only [String.data_append, List.append_assoc]
  rfl

/-- C8, counterexample: for the counts 17 and 42 the message built is not the text of
the example, which has one blank after the comma. -/
theorem payload_differs_from_example :
    build_msg ![17, 42] ≠ "\x7b \"Sense0\": 17, \"Sense1\": 42 \x7d" := by
  decide

/-- C8, amended: for counter values `a` and `b` below `2 ^ 31` the message is the flat
JSON object with the fields `Sense0` and `Sense1` in channel order, each followed
by the decimal text of its count, with two blanks between the comma and the
second field name. -/
theorem payload_format (a b : Nat) (ha : a < 2 ^ 31) (hb : b < 2 ^ 31) :
    build_msg ![a, b] =
      "\x7b \"Sense0\": " ++ toString a ++ ",  \"Sense1\": " ++ toString b ++ " \x7d" := by
  rw [build_msg_eq]
  have e0 : element 0 (![a, b] 0) = " \"Sense" ++ "0" ++ "\": " ++ toString a := by
    show " \"Sense" ++ fmt_d _ ++ "\": " ++ fmt_d (toInt32 a) = _
    rw [toInt32_of_lt a ha]
    rfl
  have e1 : element 1 (![a, b] 1) = " \"Sense" ++ "1" ++ "\": " ++ toString b := by
    show " \"Sense" ++ fmt_d _ ++ "\": " ++ fmt_d (toInt32 b) = _
    rw [toInt32_of_lt b hb]
    rfl
  rw [e0, e1, payload_assoc]

/-- C8, witness: for the counts 17 and 42 the message has two blanks after the comma. -/
theorem payload_format_witness :
    build_msg ![17, 42] = "\x7b \"Sense0\": 17,  \"Sense1\": 42 \x7d" :=
  (payload_format 17 42 (by decide) (by decide)).trans (by decide)

/-! ## Start-up and the low-then-high scenario -/

/-- C9: for every initial level of a channel, as long as every sample equals that
level no transition is logged and the counter, local and published, stays 0; and
for every sample sequence no transition is logged during the first
`SENSE_DEPTH - 1` samples after initialisation, after which the counter is 0. -/
theorem no_transition_at_startup (level : Fin SENSE_PIN_NUM → Bool)
    (ss : List (Fin SENSE_PIN_NUM → Bool)) (i : Fin SENSE_PIN_NUM) :
    ((∀ s ∈ ss, s i = level i) →
        (∀ e ∈ rt_events SENSE_DEPTH (rt_init level) ss, e i = none) ∧
        (rt_run SENSE_DEPTH level ss).PinState i = level i ∧
        (rt_run SENSE_DEPTH level ss).PinCount i = 0 ∧
        (rt_run SENSE_DEPTH level ss).sense_counter i = 0) ∧
    (∀ e ∈ (rt_events SENSE_DEPTH (rt_init level) ss).take (SENSE_DEPTH - 1), e i = none) ∧
    (rt_run SENSE_DEPTH level (ss.take (SENSE_DEPTH - 1))).PinCount i = 0 := by
  have eS : (rt_run SENSE_DEPTH level ss).PinState i =
      ((rt_run SENSE_DEPTH level ss).pin i).PinState := rfl
  refine ⟨?_, ?_⟩
  · intro h
    obtain ⟨q1, q2, q3⟩ := pin_quiet_constant SENSE_DEPTH (by decide) (by decide) (level i)
      (ss.map (fun s => s i)) (by
        intro x hx
        obtain ⟨s, hs, rfl⟩ := List.mem_map.1 hx
        exact h s hs)
    rw [rt_run_sense_counter, rt_run_PinCount, eS, rt_run_pin]
    exact ⟨rt_events_none_of_trace SENSE_DEPTH level ss i q3, q1, q2, q2⟩
  · obtain ⟨_, q2, q3⟩ := pin_quiet_prefix SENSE_DEPTH (by decide) (level i)
      ((ss.take (SENSE_DEPTH - 1)).map (fun s => s i)) (by
        rw [List.length_map, List.length_take]
        have : SENSE_DEPTH - 1 < SENSE_DEPTH := by decide
        omega)
    rw [rt_events_take, rt_run_PinCount]
    exact ⟨rt_events_none_of_trace SENSE_DEPTH level _ i q3, q2⟩

set_option maxRecDepth 8000 in
/-- C10: with `SENSE_DEPTH = 6`, a channel whose pin reads low at initialisation and
then yields 10 low samples followed by 10 high samples logs exactly one
transition over the run, a rising one at the 6th high sample (the 16th sample)
and none before, and its counter is 1 at the end. -/
theorem low_then_high_counts_once (level : Fin SENSE_PIN_NUM → Bool)
    (ss : List (Fin SENSE_PIN_NUM → Bool)) (i : Fin SENSE_PIN_NUM)
    (hl : level i = false)
    (hs : ss.map (fun s => s i) = List.replicate 10 false ++ List.replicate 10 true) :
    SENSE_DEPTH = 6 ∧
    (rt_events SENSE_DEPTH (rt_init level) ss).map (fun e => e i) =
      List.replicate 15 none ++ [some Transition.Rising] ++ List.replicate 4 none ∧
    accepted i (rt_events SENSE_DEPTH (rt_init level) ss) = 1 ∧
    (rt_run SENSE_DEPTH level ss).PinCount i = 1 ∧
    (rt_run SENSE_DEPTH level ss).sense_counter i = 1 := by
  have e3 : (rt_init level).pin i = pinInit (level i) := rfl
  rw [rt_events_pin, accepted_eq, rt_run_sense_counter, rt_run_PinCount, hs, e3, hl]
  decide

set_option maxRecDepth 8000 in
/-- C10, witness: both pins low at initialisation, then 10 low and 10 high samples
on both pins; channel 0 logs one rising transition, at the 16th sample. -/
theorem low_then_high_counts_once_witness :
    SENSE_DEPTH = 6 ∧
    (rt_events SENSE_DEPTH (rt_init (fun _ => false))
        (onAllPins (List.replicate 10 false ++ List.replicate 10 true))).map (fun e => e 0) =
      List.replicate 15 none ++ [some Transition.Rising] ++ List.replicate 4 none ∧
    accepted 0 (rt_events SENSE_DEPTH (rt_init (fun _ => false))
        (onAllPins (List.replicate 10 false ++ List.replicate 10 true))) = 1 ∧
    (rt_run SENSE_DEPTH (fun _ => false)
        (onAllPins (List.replicate 10 false ++ List.replicate 10 true))).PinCount 0 = 1 ∧
    (rt_run SENSE_DEPTH (fun _ => false)
        (onAllPins (List.replicate 10 false ++ List.replicate 10 true))).sense_counter 0 = 1 :=
  low_then_high_counts_once (fun _ => false)
    (onAllPins (List.replicate 10 false ++ List.replicate 10 true)) 0 rfl (by decide)

/-! ## Depth one, copy-out, unanimity and channel independence -/

theorem pinStep_depth_one (c : Pin) (x : Bool) :
    ((pinStep 1 c x).2.isSome = true ↔ x ≠ c.PinState) ∧
      (pinStep 1 c x).1.PinState = x := by
  have hb : ∀ v : Bool, (∀ j, j < 1 → (pinStep 1 c x).1.PinBuf.testBit j = v) ↔ x = v := by
    intro v
    constructor
    · intro h
      rw [← pinStep_testBit_zero 1 c x]
      exact h 0 (by decide)
    · intro h j hj
      have hj0 : j = 0 := by omega
      rw [hj0, pinStep_testBit_zero, h]
  have hF := pinStep_falling_iff_bits 1 (by decide) c x
  have hR := pinStep_rising_iff_bits 1 (by decide) c x
  rw [hb] at hF hR
  rcases pinStep_cases 1 c x with ⟨e, h1, h2, _⟩ | ⟨e, h1, h2, _⟩ | ⟨e, h2, _⟩
  · have hx := (hF.1 e).1
    refine ⟨?_, by rw [h2, hx]⟩
    rw [e, h1, hx]
    simp
  · have hx := (hR.1 e).1
    refine ⟨?_, by rw [h2, hx]⟩
    rw [e, h1, hx]
    simp
  · have nF : ¬ (x = false ∧ c.PinState = true) := fun h => by
      rw [hF.2 h] at e
      cases e
    have nR : ¬ (x = true ∧ c.PinState = false) := fun h => by
      rw [hR.2 h] at e
      cases e
    have hx : x = c.PinState := by
      cases x <;> cases hs : c.PinState <;> simp_all
    refine ⟨?_, by rw [h2, hx]⟩
    rw [e]
    simp [hx]

/-- C11: with filter depth 1 the mask is 1, and the sampler step logs a transition
for a channel exactly at the samples whose level differs from the channel's
stable state; the stable state is then the sample, so in a run each sample that
differs from the one before it (from the initial level for the first sample) is
reported on that very sample. -/
theorem depth_one_reports_every_flip (level : Fin SENSE_PIN_NUM → Bool)
    (ss : List (Fin SENSE_PIN_NUM → Bool)) (st : RtState) (s : Fin SENSE_PIN_NUM → Bool)
    (i : Fin SENSE_PIN_NUM) :
    Mask 1 = 1 ∧
    (((rt_cycle 1 st s).2 i).isSome = true ↔ s i ≠ st.PinState i) ∧
    (rt_cycle 1 st s).1.PinState i = s i ∧
    (rt_run 1 level ss).PinState i = (ss.map (fun t => t i)).getLastD (level i) ∧
    (((rt_cycle 1 (rt_run 1 level ss) s).2 i).isSome = true ↔
      s i ≠ (ss.map (fun t => t i)).getLastD (level i)) := by
  have e1 : ∀ st : RtState, (rt_cycle 1 st s).1.PinState i =
      ((rt_cycle 1 st s).1.pin i).PinState := fun _ => rfl
  have hstep : ∀ st : RtState,
      (((rt_cycle 1 st s).2 i).isSome = true ↔ s i ≠ st.PinState i) ∧
        (rt_cycle 1 st s).1.PinState i = s i := by
    intro st
    rw [e1, rt_cycle_event, rt_cycle_pin]
    exact pinStep_depth_one (st.pin i) (s i)
  have hrun : (rt_run 1 level ss).PinState i = (ss.map (fun t => t i)).getLastD (level i) := by
    induction ss using List.reverseRecOn with
    | nil => rfl
    | append_singleton ss t _ =>
      have e2 : (rt_cycle 1 (rt_run 1 level ss) t).1.PinState i =
          ((rt_cycle 1 (rt_run 1 level ss) t).1.pin i).PinState := rfl
      rw [rt_run_append, List.map_append, List.map_singleton, List.getLastD_concat, e2,
        rt_cycle_pin]
      exact (pinStep_depth_one _ _).2
  refine ⟨by decide, (hstep st).1, (hstep st).2, hrun, ?_⟩
  rw [← hrun]
  exact (hstep _).1

/-- C15: at the end of every sampler cycle, from any state and for any samples,
whether or not a count changed, `sense_counter` equals the local `PinCount` in
every channel. -/
theorem copy_out_every_cycle (st : RtState) (s : Fin SENSE_PIN_NUM → Bool)
    (i : Fin SENSE_PIN_NUM) :
    (rt_cycle SENSE_DEPTH st s).1.sense_counter i = (rt_cycle SENSE_DEPTH st s).1.PinCount i := by
  rw [rt_cycle_sense_counter]

/-- C20: the variables of channel `i` after a sampler cycle, and the transition
logged for it, are determined by the channel's variables before the cycle and
its sample; so two runs that agree on the initial level and the samples of
channel `i` agree on its buffer, stable state, counter and published counter. -/
theorem channel_independent (level level' : Fin SENSE_PIN_NUM → Bool)
    (ss ss' : List (Fin SENSE_PIN_NUM → Bool)) (st st' : RtState)
    (s s' : Fin SENSE_PIN_NUM → Bool) (i : Fin SENSE_PIN_NUM) :
    (st.pin i = st'.pin i → s i = s' i →
      (rt_cycle SENSE_DEPTH st s).1.pin i = (rt_cycle SENSE_DEPTH st' s').1.pin i ∧
      (rt_cycle SENSE_DEPTH st s).2 i = (rt_cycle SENSE_DEPTH st' s').2 i) ∧
    (level i = level' i → ss.map (fun t => t i) = ss'.map (fun t => t i) →
      (rt_run SENSE_DEPTH level ss).PinBuf i = (rt_run SENSE_DEPTH level' ss').PinBuf i ∧
      (rt_run SENSE_DEPTH level ss).PinState i = (rt_run SENSE_DEPTH level' ss').PinState i ∧
      (rt_run SENSE_DEPTH level ss).PinCount i = (rt_run SENSE_DEPTH level' ss').PinCount i ∧
      (rt_run SENSE_DEPTH level ss).sense_counter i =
        (rt_run SENSE_DEPTH level' ss').sense_counter i) := by
  constructor
  · intro hp hs
    rw [rt_cycle_pin, rt_cycle_pin, rt_cycle_event, rt_cycle_event, hp, hs]
    exact ⟨rfl, rfl⟩
  · intro hl hs
    have hpin : (rt_run SENSE_DEPTH level ss).pin i = (rt_run SENSE_DEPTH level' ss').pin i := by
      rw [rt_run_pin, rt_run_pin, hl, hs]
    rw [rt_run_sense_counter, rt_run_sense_counter]
    exact ⟨congrArg Pin.PinBuf hpin, congrArg Pin.PinState hpin, congrArg Pin.PinCount hpin,
      congrArg Pin.PinCount hpin⟩

/-! ## Unanimous windows and the stable state -/

theorem Mask_ne_zero (depth : Nat) (h0 : 0 < depth) (hd : depth ≤ 32) : Mask depth ≠ 0 := by
  rw [Mask_eq depth hd]
  have h : 2 ^ 1 ≤ 2 ^ depth := Nat.pow_le_pow_right (by decide) h0
  omega

/-- After a step, from any state, a unanimous masked buffer has the level of the
stable state. -/
theorem pinStep_unanimous (depth : Nat) (h0 : 0 < depth) (hd : depth ≤ 32) (c : Pin)
    (x v : Bool) (hu : unanimous depth (pinStep depth c x).1.PinBuf v) :
    (pinStep depth c x).1.PinState = v := by
  have hm := Mask_ne_zero depth h0 hd
  have hF := pinStep_falling_iff depth c x
  have hR := pinStep_rising_iff depth c x
  unfold unanimous at hu
  rw [pinStep_PinBuf] at hu
  cases v
  · simp only [Bool.false_eq_true, if_false] at hu
    rcases pinStep_cases depth c x with ⟨_, _, h2, _⟩ | ⟨e, _, _, _⟩ | ⟨e, h2, _⟩
    · exact h2
    · have := (hR.1 e).1
      rw [hu] at this
      exact absurd this hm
    · rw [h2]
      cases hs : c.PinState
      · rfl
      · rw [hF.2 ⟨hu.symm, hs⟩] at e
        cases e
  · simp only [if_true] at hu
    rcases pinStep_cases depth c x with ⟨e, _, _, _⟩ | ⟨_, _, h2, _⟩ | ⟨e, h2, _⟩
    · have := (hF.1 e).1
      rw [hu] at this
      exact absurd this.symm hm
    · exact h2
    · rw [h2]
      cases hs : c.PinState
      · rw [hR.2 ⟨hu.symm, hs⟩] at e
        cases e
      · rfl

/-- At initialisation a unanimous masked buffer has the level of the stable state. -/
theorem pinInit_unanimous (depth : Nat) (h0 : 0 < depth) (hd : depth ≤ 32) (b v : Bool)
    (hu : unanimous depth (pinInit b).PinBuf v) : (pinInit b).PinState = v := by
  unfold unanimous at hu
  cases v
  · simp only [Bool.false_eq_true, if_false] at hu
    have h := (and_Mask_eq_zero_iff _ depth hd).1 hu.symm 0 h0
    rw [pinInit_testBit b 0 (by decide)] at h
    rw [h]
    rfl
  · simp only [if_true] at hu
    have h := (Mask_eq_and_iff _ depth hd).1 hu.symm 0 h0
    rw [pinInit_testBit b 0 (by decide)] at h
    rw [h]
    rfl

theorem pinRun_unanimous (depth : Nat) (h0 : 0 < depth) (hd : depth ≤ 32) (b v : Bool)
    (xs : List Bool) (hu : unanimous depth (pinRun depth (pinInit b) xs).PinBuf v) :
    (pinRun depth (pinInit b) xs).PinState = v := by
  induction xs using List.reverseRecOn with
  | nil => exact pinInit_unanimous depth h0 hd b v hu
  | append_singleton xs x _ =>
    rw [pinRun_append] at hu ⊢
    exact pinStep_unanimous depth h0 hd _ x v hu

/-- A step after which the masked buffer is not unanimous keeps the stable state. -/
theorem pinStep_not_unanimous (depth : Nat) (c : Pin) (x : Bool)
    (hn : ∀ w, ¬ unanimous depth (pinStep depth c x).1.PinBuf w) :
    (pinStep depth c x).1.PinState = c.PinState := by
  have hF := pinStep_falling_iff depth c x
  have hR := pinStep_rising_iff depth c x
  rcases pinStep_cases depth c x with ⟨e, _⟩ | ⟨e, _⟩ | ⟨_, h2, _⟩
  · refine absurd ?_ (hn false)
    unfold unanimous
    rw [pinStep_PinBuf]
    simpa using (hF.1 e).1.symm
  · refine absurd ?_ (hn true)
    unfold unanimous
    rw [pinStep_PinBuf]
    simpa using (hR.1 e).1.symm
  · exact h2

/-- C19: after initialisation and after every sampler step of a channel, whenever
the low `SENSE_DEPTH` bits of `PinBuf[i]` are unanimous, `PinState[i]` is that
level; and the stable state keeps the level of the most recent unanimous window
through any later samples that leave the window mixed. -/
theorem stable_state_is_unanimous_level (level : Fin SENSE_PIN_NUM → Bool)
    (ss later : List (Fin SENSE_PIN_NUM → Bool)) (i : Fin SENSE_PIN_NUM) (v : Bool) :
    (unanimous SENSE_DEPTH ((rt_run SENSE_DEPTH level ss).PinBuf i) v →
      (rt_run SENSE_DEPTH level ss).PinState i = v) ∧
    (unanimous SENSE_DEPTH ((rt_run SENSE_DEPTH level ss).PinBuf i) v →
      (∀ p, p <+: later → p ≠ [] →
        ∀ w, ¬ unanimous SENSE_DEPTH ((rt_run SENSE_DEPTH level (ss ++ p)).PinBuf i) w) →
      (rt_run SENSE_DEPTH level (ss ++ later)).PinState i = v) := by
  have eS : ∀ l, (rt_run SENSE_DEPTH level l).PinState i =
      ((rt_run SENSE_DEPTH level l).pin i).PinState := fun _ => rfl
  have eB : ∀ l, (rt_run SENSE_DEPTH level l).PinBuf i =
      ((rt_run SENSE_DEPTH level l).pin i).PinBuf := fun _ => rfl
  have first : unanimous SENSE_DEPTH ((rt_run SENSE_DEPTH level ss).PinBuf i) v →
      (rt_run SENSE_DEPTH level ss).PinState i = v := by
    intro hu
    rw [eS, rt_run_pin]
    rw [eB, rt_run_pin] at hu
    exact pinRun_unanimous SENSE_DEPTH (by decide) (by decide) _ v _ hu
  refine ⟨first, ?_⟩
  intro hu
  induction later using List.reverseRecOn with
  | nil =>
    intro _
    rw [List.append_nil]
    exact first hu
  | append_singleton t s ih =>
    intro hmixed
    have hprev := ih (fun p hp hne w =>
      hmixed p (hp.trans (List.prefix_append t [s])) hne w)
    have hlast := hmixed (t ++ [s]) (List.prefix_refl _) (by simp)
    rw [← List.append_assoc, rt_run_append] at hlast ⊢
    have e2 : (rt_cycle SENSE_DEPTH (rt_run SENSE_DEPTH level (ss ++ t)) s).1.PinState i =
        ((rt_cycle SENSE_DEPTH (rt_run SENSE_DEPTH level (ss ++ t)) s).1.pin i).PinState := rfl
    have e3 : (rt_cycle SENSE_DEPTH (rt_run SENSE_DEPTH level (ss ++ t)) s).1.PinBuf i =
        ((rt_cycle SENSE_DEPTH (rt_run SENSE_DEPTH level (ss ++ t)) s).1.pin i).PinBuf := rfl
    rw [e3, rt_cycle_pin] at hlast
    rw [e2, rt_cycle_pin, pinStep_not_unanimous SENSE_DEPTH _ _ hlast]
    exact hprev

/-! ## `LastPub` and the comparison baseline -/

/-- C13: in a reporter cycle that performs no publish, `LastPub` after the cycle is
`LastPub` before it; such a cycle is one in which no channel changed and the
elapsed time `delta` is not greater than `SENSE_PUB_MAX`. -/
theorem lastpub_kept_without_publish (pdTICKS_TO_MS : Nat → Nat) (st : AppState)
    (inp : AppInput) (h : (app_cycle pdTICKS_TO_MS st inp).2 = none) :
    (app_cycle pdTICKS_TO_MS st inp).1.LastPub = st.LastPub ∧
    (∀ i, inp.sense_counter i = st.PinCount 1 i) ∧
    delta pdTICKS_TO_MS inp.now st.LastPub ≤ SENSE_PUB_MAX := by
  have hno : ¬ (app_cycle pdTICKS_TO_MS st inp).2.isSome = true := by
    rw [h]
    simp
  rw [app_cycle_isSome] at hno
  refine ⟨?_, ?_, ?_⟩
  · rcases app_cycle_cases pdTICKS_TO_MS st inp with ⟨e, _⟩ | ⟨_, hL⟩
    · rw [h] at e
      cases e
    · exact hL
  · intro i
    by_contra hne
    exact hno (Or.inl ⟨i, hne⟩)
  · exact not_lt.1 (fun hlt => hno (Or.inr hlt))

/-- C13, witness: with a tick of 10 ms, counters unchanged at (5, 3) and `LastPub = 7`,
the cycle at tick 107 publishes nothing and `LastPub` stays 7. -/
theorem lastpub_kept_without_publish_witness :
    (app_cycle (fun t => t * 1000 / 100)
        { PinCount := ![![5, 3], ![5, 3]], LastPub := 7 }
        { sense_counter := ![5, 3], now := 107, id := 0, pubTick := 107 }).1.LastPub =
      ({ PinCount := ![![5, 3], ![5, 3]], LastPub := 7 } : AppState).LastPub ∧
    (∀ i, (![5, 3] : Fin SENSE_PIN_NUM → Nat) i =
      ({ PinCount := ![![5, 3], ![5, 3]], LastPub := 7 } : AppState).PinCount 1 i) ∧
    delta (fun t => t * 1000 / 100) 107 7 ≤ SENSE_PUB_MAX :=
  lastpub_kept_without_publish (fun t => t * 1000 / 100)
    { PinCount := ![![5, 3], ![5, 3]], LastPub := 7 }
    { sense_counter := ![5, 3], now := 107, id := 0, pubTick := 107 } (by decide)

/-- C14: after every reporter cycle, published or not, the previous snapshot
`PinCount[1]` equals the cycle's current snapshot `PinCount[0]` in every channel;
so a cycle that sees a changed counter publishes, and the following cycle, if
the counters are the same again, publishes only when `delta` exceeds
`SENSE_PUB_MAX`, not for the change. -/
theorem baseline_advances_every_cycle (pdTICKS_TO_MS : Nat → Nat) (st : AppState)
    (inp following : AppInput) :
    (∀ i, (app_cycle pdTICKS_TO_MS st inp).1.PinCount 1 i =
      (app_cycle pdTICKS_TO_MS st inp).1.PinCount 0 i) ∧
    ((∃ i, inp.sense_counter i ≠ st.PinCount 1 i) →
      (app_cycle pdTICKS_TO_MS st inp).2.isSome = true) ∧
    ((∀ i, following.sense_counter i = inp.sense_counter i) →
      ((app_cycle pdTICKS_TO_MS (app_cycle pdTICKS_TO_MS st inp).1 following).2.isSome = true ↔
        SENSE_PUB_MAX <
          delta pdTICKS_TO_MS following.now (app_cycle pdTICKS_TO_MS st inp).1.LastPub)) := by
  obtain ⟨h0, h1⟩ := app_cycle_PinCount pdTICKS_TO_MS st inp
  refine ⟨fun i => by rw [h0, h1], ?_, ?_⟩
  · intro hc
    exact (app_cycle_isSome pdTICKS_TO_MS st inp).2 (Or.inl hc)
  · intro hsame
    rw [app_cycle_isSome, h1]
    constructor
    · rintro (⟨i, hi⟩ | h)
      · exact absurd (hsame i) hi
      · exact h
    · exact Or.inr

set_option maxRecDepth 4000 in
/-- C14, witness: with a tick of 10 ms, the counters go from (5, 3) to (6, 3) and stay;
the cycle at tick 100 publishes, the cycle at tick 200 does not, and after each
of them the previous snapshot is (6, 3). -/
theorem baseline_advances_every_cycle_witness :
    (app_run (fun t => t * 1000 / 100) { PinCount := ![![5, 3], ![5, 3]], LastPub := 0 }
        [{ sense_counter := ![6, 3], now := 100, id := 0, pubTick := 100 },
          { sense_counter := ![6, 3], now := 200, id := 0, pubTick := 200 }]).2 =
      [some { msg := "\x7b \"Sense0\": 6,  \"Sense1\": 3 \x7d", id := 0 }, none] ∧
    (∀ i, (app_cycle (fun t => t * 1000 / 100)
        { PinCount := ![![5, 3], ![5, 3]], LastPub := 0 }
        { sense_counter := ![6, 3], now := 100, id := 0, pubTick := 100 }).1.PinCount 1 i =
      (app_cycle (fun t => t * 1000 / 100)
        { PinCount := ![![5, 3], ![5, 3]], LastPub := 0 }
        { sense_counter := ![6, 3], now := 100, id := 0, pubTick := 100 }).1.PinCount 0 i) :=
  ⟨by decide,
    (baseline_advances_every_cycle (fun t => t * 1000 / 100)
      { PinCount := ![![5, 3], ![5, 3]], LastPub := 0 }
      { sense_counter := ![6, 3], now := 100, id := 0, pubTick := 100 }
      { sense_counter := ![6, 3], now := 200, id := 0, pubTick := 200 }).1⟩

/-! ## Latency and bounce -/

/-- A sample at the level of the stable state logs nothing. -/
theorem pinStep_same_level (depth : Nat) (h0 : 0 < depth) (hd : depth ≤ 32) (c : Pin) :
    (pinStep depth c c.PinState).2 = none := by
  rcases pinStep_cases depth c c.PinState with ⟨e, _⟩ | ⟨e, _⟩ | ⟨e, _⟩
  · obtain ⟨hb, hs⟩ := (pinStep_falling_iff_bits depth hd c c.PinState).1 e
    have h := hb 0 h0
    rw [pinStep_testBit_zero, hs] at h
    cases h
  · obtain ⟨hb, hs⟩ := (pinStep_rising_iff_bits depth hd c c.PinState).1 e
    have h := hb 0 h0
    rw [pinStep_testBit_zero, hs] at h
    cases h
  · exact e

/-- Samples of the level opposite to the stable state, from any state of a channel:
either nothing has been logged yet and all samples so far sit in the buffer,
fewer than `depth` of them, or exactly one transition has been logged. -/
theorem pinRun_opposite (depth : Nat) (h0 : 0 < depth) (hd : depth ≤ 32) (c : Pin) (v : Bool)
    (hs : c.PinState = !v) :
    ∀ m, m ≤ depth →
      ((pinRun depth c (List.replicate m v)).PinState = (!v) ∧
        pinTrace depth c (List.replicate m v) = List.replicate m none ∧
        (∀ j, j < m → (pinRun depth c (List.replicate m v)).PinBuf.testBit j = v) ∧
        (pinRun depth c (List.replicate m v)).PinCount = c.PinCount ∧ m < depth) ∨
      ((pinRun depth c (List.replicate m v)).PinState = v ∧
        (pinTrace depth c (List.replicate m v)).countP (fun e => e.isSome) = 1 ∧
        (pinRun depth c (List.replicate m v)).PinCount = (c.PinCount + 1) % U32) := by
  intro m
  induction m with
  | zero =>
    intro _
    exact Or.inl ⟨hs, rfl, fun j hj => absurd hj (Nat.not_lt_zero j), rfl, h0⟩
  | succ m ih =>
    intro hm
    rw [List.replicate_succ', pinRun_append, pinTrace_append]
    simp only [pinTrace]
    rcases ih (by omega) with ⟨a1, a2, a3, a4, _⟩ | ⟨b1, b2, b3⟩
    · have hbits : ∀ j, j < m + 1 →
          (pinStep depth (pinRun depth c (List.replicate m v)) v).1.PinBuf.testBit j = v := by
        intro j hj
        cases j with
        | zero => exact pinStep_testBit_zero _ _ _
        | succ k =>
          rw [pinStep_testBit_succ _ _ _ _ (by omega)]
          exact a3 k (by omega)
      have hv0 : (pinStep depth (pinRun depth c (List.replicate m v)) v).1.PinBuf.testBit 0 = v :=
        pinStep_testBit_zero _ _ _
      rcases pinStep_cases depth (pinRun depth c (List.replicate m v)) v with
        ⟨e, _, e1, e2⟩ | ⟨e, _, e1, e2⟩ | ⟨e, e1, e2⟩
      · right
        have hv : v = false := by
          rw [← hv0]
          exact ((pinStep_falling_iff_bits depth hd _ _).1 e).1 0 h0
        refine ⟨by rw [e1, hv], ?_, by rw [e2, a4]⟩
        rw [a2, e]
        simp [List.countP_append, List.countP_replicate]
      · right
        have hv : v = true := by
          rw [← hv0]
          exact ((pinStep_rising_iff_bits depth hd _ _).1 e).1 0 h0
        refine ⟨by rw [e1, hv], ?_, by rw [e2, a4]⟩
        rw [a2, e]
        simp [List.countP_append, List.countP_replicate]
      · left
        have hlt : m + 1 < depth := by
          by_contra hge
          have hall : ∀ j, j < depth →
              (pinStep depth (pinRun depth c (List.replicate m v)) v).1.PinBuf.testBit j = v :=
            fun j hj => hbits j (by omega)
          cases v
          · rw [(pinStep_falling_iff_bits depth hd _ _).2 ⟨hall, by simpa using a1⟩] at e
            cases e
          · rw [(pinStep_rising_iff_bits depth hd _ _).2 ⟨hall, by simpa using a1⟩] at e
            cases e
        refine ⟨by rw [e1, a1], ?_, hbits, by rw [e2, a4], hlt⟩
        rw [a2, e, ← List.replicate_succ']
    · right
      have hnone : (pinStep depth (pinRun depth c (List.replicate m v)) v).2 = none := by
        have h := pinStep_same_level depth h0 hd (pinRun depth c (List.replicate m v))
        rw [b1] at h
        exact h
      obtain ⟨s1, s2⟩ := pinStep_none depth _ v hnone
      refine ⟨by rw [s1, b1], ?_, by rw [s2, b3]⟩
      rw [hnone, List.countP_append, b2]
      rfl

theorem rt_run_pin_append (depth : Nat) (level : Fin SENSE_PIN_NUM → Bool)
    (ss next : List (Fin SENSE_PIN_NUM → Bool)) (i : Fin SENSE_PIN_NUM) :
    (rt_run depth level (ss ++ next)).pin i =
      pinRun depth ((rt_run depth level ss).pin i) (next.map (fun s => s i)) := by
  rw [rt_run_pin, rt_run_pin, List.map_append, pinRun_append_list]

theorem rt_events_none_from (depth : Nat) (st : RtState)
    (next : List (Fin SENSE_PIN_NUM → Bool)) (i : Fin SENSE_PIN_NUM) (n : Nat)
    (h : pinTrace depth (st.pin i) (next.map (fun s => s i)) = List.replicate n none) :
    ∀ e ∈ rt_events depth st next, e i = none := by
  intro e he
  have hm : e i ∈ (rt_events depth st next).map (fun e => e i) :=
    List.mem_map_of_mem (fun e => e i) he
  rw [rt_events_pin, h] at hm
  exact (List.mem_replicate.1 hm).2

/-- C16: from every reachable state of a channel, if the next `SENSE_DEPTH` samples all
have the level opposite to the stable state, exactly one transition is logged
during those samples, so no later than the last of them, and afterwards the
stable state is the opposite level and the counter has advanced by one. -/
theorem opposite_level_detected_within_depth (level : Fin SENSE_PIN_NUM → Bool)
    (ss next : List (Fin SENSE_PIN_NUM → Bool)) (i : Fin SENSE_PIN_NUM)
    (hlen : next.length = SENSE_DEPTH)
    (hopp : ∀ s ∈ next, s i = !(rt_run SENSE_DEPTH level ss).PinState i) :
    accepted i (rt_events SENSE_DEPTH (rt_run SENSE_DEPTH level ss) next) = 1 ∧
    (rt_run SENSE_DEPTH level (ss ++ next)).PinState i =
      (!(rt_run SENSE_DEPTH level ss).PinState i) ∧
    (rt_run SENSE_DEPTH level (ss ++ next)).PinCount i =
      ((rt_run SENSE_DEPTH level ss).PinCount i + 1) % 2 ^ 32 := by
  have hmap : next.map (fun s => s i) =
      List.replicate SENSE_DEPTH (!(rt_run SENSE_DEPTH level ss).PinState i) := by
    rw [List.eq_replicate_iff]
    refine ⟨by rw [List.length_map, hlen], ?_⟩
    intro y hy
    obtain ⟨s, hs, rfl⟩ := List.mem_map.1 hy
    exact hopp s hs
  have eS : ∀ l, (rt_run SENSE_DEPTH level l).PinState i =
      ((rt_run SENSE_DEPTH level l).pin i).PinState := fun _ => rfl
  have eC : ∀ l, (rt_run SENSE_DEPTH level l).PinCount i =
      ((rt_run SENSE_DEPTH level l).pin i).PinCount := fun _ => rfl
  have key := pinRun_opposite SENSE_DEPTH (by decide) (by decide)
    ((rt_run SENSE_DEPTH level ss).pin i) (!(rt_run SENSE_DEPTH level ss).PinState i)
    (by rw [Bool.not_not]; rfl) SENSE_DEPTH (Nat.le_refl _)
  rw [accepted_eq, eS (ss ++ next), eC (ss ++ next), rt_run_pin_append, hmap]
  rcases key with ⟨_, _, _, _, hlt⟩ | ⟨k1, k2, k3⟩
  · exact absurd hlt (Nat.lt_irrefl _)
  · exact ⟨k2, k1, k3⟩

set_option maxRecDepth 8000 in
/-- C16, witness: both pins low at initialisation, three high samples taken (stable
state still low), then six more high samples: one transition is logged among
the six, the stable state becomes high and the counter 1. -/
theorem opposite_level_detected_within_depth_witness :
    accepted 0 (rt_events SENSE_DEPTH
        (rt_run SENSE_DEPTH (fun _ => false) (onAllPins [true, true, true]))
        (onAllPins (List.replicate 6 true))) = 1 ∧
    (rt_run SENSE_DEPTH (fun _ => false)
        (onAllPins [true, true, true] ++ onAllPins (List.replicate 6 true))).PinState 0 =
      (!(rt_run SENSE_DEPTH (fun _ => false) (onAllPins [true, true, true])).PinState 0) ∧
    (rt_run SENSE_DEPTH (fun _ => false)
        (onAllPins [true, true, true] ++ onAllPins (List.replicate 6 true))).PinCount 0 =
      ((rt_run SENSE_DEPTH (fun _ => false) (onAllPins [true, true, true])).PinCount 0 + 1)
        % 2 ^ 32 :=
  opposite_level_detected_within_depth (fun _ => false) (onAllPins [true, true, true])
    (onAllPins (List.replicate 6 true)) 0 (by decide) (by decide)

/-- C17: from every reachable state of a channel whose most recent sample has the
level `s` of the stable state, a burst of `k < SENSE_DEPTH` samples of the opposite
level followed by a sample of level `s` logs no transition and leaves the stable
state and the counter, local and published, unchanged. -/
theorem short_bounce_ignored (level : Fin SENSE_PIN_NUM → Bool)
    (ss next : List (Fin SENSE_PIN_NUM → Bool)) (i : Fin SENSE_PIN_NUM) (k : Nat)
    (hrecent : ∀ y ∈ recentSamples 1 (level i) (ss.map (fun s => s i)),
      y = (rt_run SENSE_DEPTH level ss).PinState i)
    (hk : k < SENSE_DEPTH)
    (hnext : next.map (fun s => s i) =
      List.replicate k (!(rt_run SENSE_DEPTH level ss).PinState i) ++
        [(rt_run SENSE_DEPTH level ss).PinState i]) :
    (∀ e ∈ rt_events SENSE_DEPTH (rt_run SENSE_DEPTH level ss) next, e i = none) ∧
    (rt_run SENSE_DEPTH level (ss ++ next)).PinState i =
      (rt_run SENSE_DEPTH level ss).PinState i ∧
    (rt_run SENSE_DEPTH level (ss ++ next)).PinCount i =
      (rt_run SENSE_DEPTH level ss).PinCount i ∧
    (rt_run SENSE_DEPTH level (ss ++ next)).sense_counter i =
      (rt_run SENSE_DEPTH level ss).sense_counter i := by
  have eS : ∀ l, (rt_run SENSE_DEPTH level l).PinState i =
      ((rt_run SENSE_DEPTH level l).pin i).PinState := fun _ => rfl
  have eC : ∀ l, (rt_run SENSE_DEPTH level l).PinCount i =
      ((rt_run SENSE_DEPTH level l).pin i).PinCount := fun _ => rfl
  have hbit : ((rt_run SENSE_DEPTH level ss).pin i).PinBuf.testBit 0 =
      ((rt_run SENSE_DEPTH level ss).pin i).PinState := by
    have h := (recentSamples_all_iff 1 (level i) _ _).1 hrecent 0 (by decide)
    rw [eS, rt_run_pin] at h
    rw [rt_run_pin, pinRun_testBit SENSE_DEPTH _ _ 0 (by decide)]
    exact h
  rw [eS ss] at hnext
  rw [rt_run_sense_counter, rt_run_sense_counter, eS (ss ++ next), eC (ss ++ next), eS ss,
    eC ss, rt_run_pin_append, hnext]
  generalize hc : (rt_run SENSE_DEPTH level ss).pin i = c at hbit hnext ⊢
  obtain ⟨p1, p2, _, _, p5⟩ := pinRun_pending SENSE_DEPTH (by decide) c (!c.PinState)
    (by rw [Bool.not_not]) (by rw [Bool.not_not]; exact hbit) k hk
  rw [Bool.not_not] at p1
  have hnone : (pinStep SENSE_DEPTH (pinRun SENSE_DEPTH c (List.replicate k (!c.PinState)))
      c.PinState).2 = none := by
    have h := pinStep_same_level SENSE_DEPTH (by decide) (by decide)
      (pinRun SENSE_DEPTH c (List.replicate k (!c.PinState)))
    rw [p1] at h
    exact h
  obtain ⟨s1, s2⟩ := pinStep_none SENSE_DEPTH _ _ hnone
  have htrace : pinTrace SENSE_DEPTH c (List.replicate k (!c.PinState) ++ [c.PinState]) =
      List.replicate (k + 1) none := by
    rw [pinTrace_append, p5]
    simp only [pinTrace, hnone]
    rw [← List.replicate_succ']
  rw [pinRun_append, s1, s2, p1, p2]
  refine ⟨?_, rfl, rfl, rfl⟩
  apply rt_events_none_from SENSE_DEPTH _ next i (k + 1)
  rw [hnext, hc]
  exact htrace

set_option maxRecDepth 8000 in
/-- C17, witness: both pins low at initialisation and at the first sample; a burst of
three high samples followed by a low sample logs nothing for channel 0 and
leaves its stable state and counters as they were. -/
theorem short_bounce_ignored_witness :
    (∀ e ∈ rt_events SENSE_DEPTH (rt_run SENSE_DEPTH (fun _ => false) (onAllPins [false]))
        (onAllPins [true, true, true, false]), e 0 = none) ∧
    (rt_run SENSE_DEPTH (fun _ => false)
        (onAllPins [false] ++ onAllPins [true, true, true, false])).PinState 0 =
      (rt_run SENSE_DEPTH (fun _ => false) (onAllPins [false])).PinState 0 ∧
    (rt_run SENSE_DEPTH (fun _ => false)
        (onAllPins [false] ++ onAllPins [true, true, true, false])).PinCount 0 =
      (rt_run SENSE_DEPTH (fun _ => false) (onAllPins [false])).PinCount 0 ∧
    (rt_run SENSE_DEPTH (fun _ => false)
        (onAllPins [false] ++ onAllPins [true, true, true, false])).sense_counter 0 =
      (rt_run SENSE_DEPTH (fun _ => false) (onAllPins [false])).sense_counter 0 :=
  short_bounce_ignored (fun _ => false) (onAllPins [false])
    (onAllPins [true, true, true, false]) 0 3 (by decide) (by decide) (by decide)

/-! ## Alternation and parity -/

/-- The transitions logged by one channel alternate, the stable state is the level
the last of them leads to (the initial level when there is none), and the counter
is odd exactly when the stable state differs from the initial level. -/
theorem pinRun_alternates (depth : Nat) (b : Bool) (xs : List Bool) :
    List.Chain' (fun x y => x ≠ y) ((pinTrace depth (pinInit b) xs).filterMap id) ∧
    (pinRun depth (pinInit b) xs).PinState =
      ((((pinTrace depth (pinInit b) xs).filterMap id).getLast?).map levelAfter).getD b ∧
    ((pinRun depth (pinInit b) xs).PinCount % 2 = 1 ↔
      (pinRun depth (pinInit b) xs).PinState ≠ b) := by
  induction xs using List.reverseRecOn with
  | nil =>
    refine ⟨List.chain'_nil, rfl, ?_⟩
    show (0 % 2 = 1) ↔ b ≠ b
    simp
  | append_singleton xs x ih =>
    obtain ⟨c1, c2, c3⟩ := ih
    rw [pinRun_append, pinTrace_append, List.filterMap_append]
    simp only [pinTrace]
    rcases pinStep_cases depth (pinRun depth (pinInit b) xs) x with
      ⟨e, h1, h2, h3⟩ | ⟨e, h1, h2, h3⟩ | ⟨e, h2, h3⟩
    · rw [e, h2, h3]
      have hf : List.filterMap id [some Transition.Falling] = [Transition.Falling] := rfl
      rw [hf, List.getLast?_concat]
      refine ⟨?_, rfl, ?_⟩
      · rw [List.chain'_append]
        refine ⟨c1, List.chain'_singleton _, ?_⟩
        intro t ht y hy
        have hy' : y = Transition.Falling := by simpa using hy.symm
        have ht' : ((pinTrace depth (pinInit b) xs).filterMap id).getLast? = some t := ht
        rw [ht', h1] at c2
        rw [hy']
        cases t
        · cases c2
        · exact fun h => nomatch h
      · rw [h1] at c3
        unfold U32
        cases b
        · have : (pinRun depth (pinInit false) xs).PinCount % 2 = 1 := c3.2 (by decide)
          simp only [ne_eq, not_true_eq_false, iff_false]
          omega
        · have : ¬ (pinRun depth (pinInit true) xs).PinCount % 2 = 1 :=
            fun h => absurd rfl (c3.1 h)
          simp only [ne_eq, Bool.false_eq_true, not_false_eq_true, iff_true]
          omega
    · rw [e, h2, h3]
      have hf : List.filterMap id [some Transition.Rising] = [Transition.Rising] := rfl
      rw [hf, List.getLast?_concat]
      refine ⟨?_, rfl, ?_⟩
      · rw [List.chain'_append]
        refine ⟨c1, List.chain'_singleton _, ?_⟩
        intro t ht y hy
        have hy' : y = Transition.Rising := by simpa using hy.symm
        have ht' : ((pinTrace depth (pinInit b) xs).filterMap id).getLast? = some t := ht
        rw [ht', h1] at c2
        rw [hy']
        cases t
        · exact fun h => nomatch h
        · cases c2
      · rw [h1] at c3
        unfold U32
        cases b
        · have : ¬ (pinRun depth (pinInit false) xs).PinCount % 2 = 1 :=
            fun h => absurd rfl (c3.1 h)
          simp only [ne_eq, Bool.true_eq_false, not_false_eq_true, iff_true]
          omega
        · have : (pinRun depth (pinInit true) xs).PinCount % 2 = 1 := c3.2 (by decide)
          simp only [ne_eq, not_true_eq_false, iff_false]
          omega
    · rw [e, h2, h3]
      have hf : List.filterMap id [(none : Option Transition)] = [] := rfl
      rw [hf, List.append_nil]
      exact ⟨c1, c2, c3⟩

/-- C18: for every initial level and sample sequence of a channel, the transitions
logged for it alternate in direction, the stable state is the level the last of
them leads to, and the 32-bit counter is odd exactly when the stable state
differs from the level read at initialisation. -/
theorem transitions_alternate_and_parity (level : Fin SENSE_PIN_NUM → Bool)
    (ss : List (Fin SENSE_PIN_NUM → Bool)) (i : Fin SENSE_PIN_NUM) :
    List.Chain' (fun x y => x ≠ y)
      ((rt_events SENSE_DEPTH (rt_init level) ss).filterMap (fun e => e i)) ∧
    (rt_run SENSE_DEPTH level ss).PinState i =
      ((((rt_events SENSE_DEPTH (rt_init level) ss).filterMap (fun e => e i)).getLast?).map
        levelAfter).getD (level i) ∧
    ((rt_run SENSE_DEPTH level ss).PinCount i % 2 = 1 ↔
      (rt_run SENSE_DEPTH level ss).PinState i ≠ level i) := by
  have hfm : (rt_events SENSE_DEPTH (rt_init level) ss).filterMap (fun e => e i) =
      (pinTrace SENSE_DEPTH (pinInit (level i)) (ss.map (fun s => s i))).filterMap id := by
    have e3 : (rt_init level).pin i = pinInit (level i) := rfl
    rw [← e3, ← rt_events_pin, List.filterMap_map]
    rfl
  have eS : (rt_run SENSE_DEPTH level ss).PinState i =
      ((rt_run SENSE_DEPTH level ss).pin i).PinState := rfl
  rw [hfm, rt_run_PinCount, eS, rt_run_pin]
  exact pinRun_alternates SENSE_DEPTH (level i) (ss.map (fun s => s i))

/-! ## Snapshots under the lock -/

theorem rt_pins_sense_counter (depth : Nat) (st : RtState) (level : Fin SENSE_PIN_NUM → Bool) :
    (rt_pins depth st level).1.sense_counter = st.sense_counter := by
  rw [rt_pins_eq]
  rfl

theorem exec_append_turn (s : Sys) (p : List Turn) (a : Turn) :
    exec s (p ++ [a]) = turn (exec s p) a := by
  simp [exec, List.foldl_append]

theorem rt_turn_sampling (s : Sys) (level : Fin SENSE_PIN_NUM → Bool)
    (h : s.rtPc = RtPc.sampling) :
    rt_turn s level =
      { s with rt := (rt_pins SENSE_DEPTH s.rt level).1, rtPc := RtPc.waiting } := by
  unfold rt_turn
  rw [h]

theorem rt_turn_take (s : Sys) (level : Fin SENSE_PIN_NUM → Bool)
    (h : s.rtPc = RtPc.waiting) (hl : s.sense_lock = none) :
    rt_turn s level = { s with sense_lock := some TaskId.rt, rtPc := RtPc.copying 0 } := by
  unfold rt_turn
  rw [h, hl]
  rfl

theorem rt_turn_blocked (s : Sys) (level : Fin SENSE_PIN_NUM → Bool)
    (h : s.rtPc = RtPc.waiting) (t : TaskId) (hl : s.sense_lock = some t) :
    rt_turn s level = s := by
  unfold rt_turn
  rw [h, hl]
  rfl

theorem rt_turn_copy (s : Sys) (level : Fin SENSE_PIN_NUM → Bool) (k : Nat)
    (h : s.rtPc = RtPc.copying k) (hk : k < SENSE_PIN_NUM) :
    rt_turn s level =
      { s with
        rt := { s.rt with
          sense_counter := Function.update s.rt.sense_counter ⟨k, hk⟩ (s.rt.PinCount ⟨k, hk⟩) },
        rtPc := RtPc.copying (k + 1) } := by
  unfold rt_turn
  rw [h]
  exact dif_pos hk

theorem rt_turn_give (s : Sys) (level : Fin SENSE_PIN_NUM → Bool) (k : Nat)
    (h : s.rtPc = RtPc.copying k) (hk : ¬ k < SENSE_PIN_NUM) :
    rt_turn s level = { s with sense_lock := giveLock, rtPc := RtPc.sampling } := by
  unfold rt_turn
  rw [h]
  exact dif_neg hk

theorem app_turn_take (s : Sys) (h : s.appPc = AppPc.idle) (hl : s.sense_lock = none) :
    app_turn s = { s with sense_lock := some TaskId.app, appPc := AppPc.copying 0 } := by
  unfold app_turn
  rw [h, hl]
  rfl

theorem app_turn_blocked (s : Sys) (h : s.appPc = AppPc.idle) (t : TaskId)
    (hl : s.sense_lock = some t) : app_turn s = s := by
  unfold app_turn
  rw [h, hl]
  rfl

theorem app_turn_copy (s : Sys) (k : Nat) (h : s.appPc = AppPc.copying k)
    (hk : k < SENSE_PIN_NUM) :
    app_turn s =
      { s with
        appPinCount := Function.update s.appPinCount ⟨k, hk⟩ (s.rt.sense_counter ⟨k, hk⟩),
        appPc := AppPc.copying (k + 1) } := by
  unfold app_turn
  rw [h]
  exact dif_pos hk

theorem app_turn_give (s : Sys) (k : Nat) (h : s.appPc = AppPc.copying k)
    (hk : ¬ k < SENSE_PIN_NUM) :
    app_turn s = { s with sense_lock := giveLock, appPc := AppPc.idle } := by
  unfold app_turn
  rw [h]
  exact dif_neg hk

/-- A turn of `rt_task` keeps the lock invariant; the vector it has finished copying
when it gives the lock is counted as copied out from then on. -/
theorem rt_turn_inv (C C' : (Fin SENSE_PIN_NUM → Nat) → Prop) (s : Sys)
    (level : Fin SENSE_PIN_NUM → Bool) (hinv : lockInv C s) (hmono : ∀ v, C v → C' v)
    (hgive : s.rtPc = RtPc.copying SENSE_PIN_NUM → s.rt.sense_counter = s.rt.PinCount →
      C' s.rt.sense_counter) :
    lockInv C' (rt_turn s level) := by
  obtain ⟨i1, i2, i3, i4⟩ := hinv
  cases hpc : s.rtPc with
  | sampling =>
    have hnc : ∀ k, s.rtPc ≠ RtPc.copying k := fun k h => by
      rw [hpc] at h
      cases h
    rw [rt_turn_sampling s level hpc]
    refine ⟨?_, ?_, ?_, ?_⟩
    · intro k hk
      cases hk
    · intro _
      show C' (rt_pins SENSE_DEPTH s.rt level).1.sense_counter
      rw [rt_pins_sense_counter]
      exact hmono _ (i2 hnc)
    · intro k hk
      obtain ⟨a, b, c⟩ := i3 k hk
      refine ⟨a, b, ?_⟩
      intro j hj
      show s.appPinCount j = (rt_pins SENSE_DEPTH s.rt level).1.sense_counter j
      rw [rt_pins_sense_counter]
      exact c j hj
    · intro h
      exact hmono _ (i4 h)
  | waiting =>
    have hnc : ∀ k, s.rtPc ≠ RtPc.copying k := fun k h => by
      rw [hpc] at h
      cases h
    cases hl : s.sense_lock with
    | none =>
      rw [rt_turn_take s level hpc hl]
      refine ⟨?_, ?_, ?_, ?_⟩
      · intro k hk
        have hk0 : k = 0 := by
          cases hk
          rfl
        subst hk0
        exact ⟨rfl, Nat.zero_le _, fun j hj => absurd hj (Nat.not_lt_zero _)⟩
      · intro h
        exact absurd rfl (h 0)
      · intro k hk
        have := (i3 k hk).1
        rw [hl] at this
        cases this
      · intro h
        exact hmono _ (i4 h)
    | some t =>
      rw [rt_turn_blocked s level hpc t hl]
      exact ⟨i1, fun h => hmono _ (i2 h), i3, fun h => hmono _ (i4 h)⟩
  | copying k =>
    obtain ⟨l1, l2, l3⟩ := i1 k hpc
    have happ : ∀ k', s.appPc ≠ AppPc.copying k' := fun k' h => by
      have := (i3 k' h).1
      rw [l1] at this
      cases this
    by_cases hk : k < SENSE_PIN_NUM
    · rw [rt_turn_copy s level k hpc hk]
      refine ⟨?_, ?_, ?_, ?_⟩
      · intro k' hk'
        have hk1 : k' = k + 1 := by
          cases hk'
          rfl
        subst hk1
        refine ⟨l1, hk, ?_⟩
        intro j hj
        show Function.update s.rt.sense_counter ⟨k, hk⟩ (s.rt.PinCount ⟨k, hk⟩) j =
          s.rt.PinCount j
        by_cases hjk : j = ⟨k, hk⟩
        · rw [hjk, Function.update_same]
        · rw [Function.update_noteq hjk]
          apply l3 j
          have : j.val ≠ k := fun h => hjk (Fin.ext h)
          omega
      · intro h
        exact absurd rfl (h (k + 1))
      · intro k' hk'
        exact absurd hk' (happ k')
      · intro h
        exact hmono _ (i4 h)
    · rw [rt_turn_give s level k hpc hk]
      have hkN : k = SENSE_PIN_NUM := by omega
      have hall : s.rt.sense_counter = s.rt.PinCount := by
        funext j
        exact l3 j (by rw [hkN]; exact j.isLt)
      refine ⟨?_, ?_, ?_, ?_⟩
      · intro k' hk'
        cases hk'
      · intro _
        exact hgive (by rw [hpc, hkN]) hall
      · intro k' hk'
        exact absurd hk' (happ k')
      · intro h
        exact hmono _ (i4 h)

/-- A turn of `app_task` keeps the lock invariant. -/
theorem app_turn_inv (C C' : (Fin SENSE_PIN_NUM → Nat) → Prop) (s : Sys)
    (hinv : lockInv C s) (hmono : ∀ v, C v → C' v) :
    lockInv C' (app_turn s) := by
  obtain ⟨i1, i2, i3, i4⟩ := hinv
  cases hpc : s.appPc with
  | idle =>
    cases hl : s.sense_lock with
    | none =>
      rw [app_turn_take s hpc hl]
      refine ⟨?_, ?_, ?_, ?_⟩
      · intro k hk
        have := (i1 k hk).1
        rw [hl] at this
        cases this
      · intro h
        exact hmono _ (i2 h)
      · intro k hk
        have hk0 : k = 0 := by
          cases hk
          rfl
        subst hk0
        exact ⟨rfl, Nat.zero_le _, fun j hj => absurd hj (Nat.not_lt_zero _)⟩
      · intro h
        cases h
    | some t =>
      rw [app_turn_blocked s hpc t hl]
      exact ⟨i1, fun h => hmono _ (i2 h), i3, fun h => hmono _ (i4 h)⟩
  | copying k =>
    obtain ⟨l1, l2, l3⟩ := i3 k hpc
    have hrt : ∀ k', s.rtPc ≠ RtPc.copying k' := fun k' h => by
      have := (i1 k' h).1
      rw [l1] at this
      cases this
    by_cases hk : k < SENSE_PIN_NUM
    · rw [app_turn_copy s k hpc hk]
      refine ⟨?_, ?_, ?_, ?_⟩
      · intro k' hk'
        exact absurd hk' (hrt k')
      · intro _
        exact hmono _ (i2 hrt)
      · intro k' hk'
        have hk1 : k' = k + 1 := by
          cases hk'
          rfl
        subst hk1
        refine ⟨l1, hk, ?_⟩
        intro j hj
        show Function.update s.appPinCount ⟨k, hk⟩ (s.rt.sense_counter ⟨k, hk⟩) j =
          s.rt.sense_counter j
        by_cases hjk : j = ⟨k, hk⟩
        · rw [hjk, Function.update_same]
        · rw [Function.update_noteq hjk]
          apply l3 j
          have : j.val ≠ k := fun h => hjk (Fin.ext h)
          omega
      · intro h
        cases h
    · rw [app_turn_give s k hpc hk]
      have hkN : k = SENSE_PIN_NUM := by omega
      have hall : s.appPinCount = s.rt.sense_counter := by
        funext j
        exact l3 j (by rw [hkN]; exact j.isLt)
      refine ⟨?_, ?_, ?_, ?_⟩
      · intro k' hk'
        exact absurd hk' (hrt k')
      · intro _
        exact hmono _ (i2 hrt)
      · intro k' hk'
        cases hk'
      · intro _
        show C' s.appPinCount
        rw [hall]
        exact hmono _ (i2 hrt)

theorem copiedOut_mono (level : Fin SENSE_PIN_NUM → Bool) (p : List Turn) (a : Turn)
    (v : Fin SENSE_PIN_NUM → Nat) (h : copiedOut level p v) : copiedOut level (p ++ [a]) v := by
  rcases h with h | ⟨q, hq, h1, h2, h3⟩
  · exact Or.inl h
  · exact Or.inr ⟨q, hq.trans (List.prefix_append p [a]), h1, h2, h3⟩

/-- Along every schedule the lock invariant holds. -/
theorem exec_lockInv (level : Fin SENSE_PIN_NUM → Bool) (schedule : List Turn) :
    lockInv (copiedOut level schedule) (exec (sysInit level) schedule) := by
  induction schedule using List.reverseRecOn with
  | nil =>
    refine ⟨?_, ?_, ?_, ?_⟩
    · intro k hk
      cases hk
    · intro _
      exact Or.inl rfl
    · intro k hk
      cases hk
    · intro _
      exact Or.inl rfl
  | append_singleton p a ih =>
    rw [exec_append_turn]
    cases a with
    | rt lv =>
      apply rt_turn_inv (copiedOut level p) _ _ lv ih (copiedOut_mono level p _)
      intro hpc hall
      exact Or.inr ⟨p, List.prefix_append p _, hpc, rfl, hall.symm⟩
    | app =>
      exact app_turn_inv (copiedOut level p) _ _ ih (copiedOut_mono level p _)

/-- Run without interruption from the start of its cycle with the lock free, the
five statements of `rt_task` amount to one sampler cycle. -/
theorem rt_turns_eq_rt_cycle (s : Sys) (level : Fin SENSE_PIN_NUM → Bool)
    (h : s.rtPc = RtPc.sampling) (hl : s.sense_lock = none) :
    exec s (List.replicate 5 (Turn.rt level)) =
      { s with rt := (rt_cycle SENSE_DEPTH s.rt level).1 } := by
  obtain ⟨rt, rtPc, appPinCount, appPc, sense_lock⟩ := s
  simp only at h hl
  subst h hl
  rfl

/-- Run without interruption with the lock free, the four statements of the locked
region of `app_task` copy the whole of `sense_counter` into `PinCount[0]`. -/
theorem app_turns_copy_all (s : Sys) (h : s.appPc = AppPc.idle) (hl : s.sense_lock = none) :
    (exec s (List.replicate 4 Turn.app)).appPinCount = s.rt.sense_counter ∧
      (exec s (List.replicate 4 Turn.app)).appPc = AppPc.idle := by
  have e : ∀ t : Sys, t.appPc = AppPc.idle → t.sense_lock = none →
      (exec t (List.replicate 4 Turn.app)).appPinCount =
          Function.update (Function.update t.appPinCount 0 (t.rt.sense_counter 0)) 1
            (t.rt.sense_counter 1) ∧
        (exec t (List.replicate 4 Turn.app)).appPc = AppPc.idle := by
    intro t h1 h2
    obtain ⟨a, b, c, d, e⟩ := t
    simp only at h1 h2
    subst h1 h2
    exact ⟨rfl, rfl⟩
  obtain ⟨e1, e2⟩ := e s h hl
  refine ⟨?_, e2⟩
  rw [e1]
  funext j
  fin_cases j <;> simp [Function.update]

/-- C12: under every interleaving of the statements of the sampler and of the
reporter, with `sense_lock` held around each copy loop, each snapshot the reporter
has completed in `PinCount[0]` is, in all channels at once, the initial all-zero
counters or the counters that one single copy-out of the sampler wrote. -/
theorem snapshot_is_one_copy_out (level : Fin SENSE_PIN_NUM → Bool) (schedule : List Turn)
    (h : (exec (sysInit level) schedule).appPc = AppPc.idle) :
    copiedOut level schedule (exec (sysInit level) schedule).appPinCount :=
  (exec_lockInv level schedule).2.2.2 h

set_option maxRecDepth 20000 in
/-- C12, witness: both pins low at initialisation, pin 0 reading high from then on. The
sampler runs five cycles and takes the lock in the sixth; the reporter's two
attempts to take the lock while the sampler copies are blocked; once the sampler
has given the lock the reporter completes its snapshot, which is (1, 0). -/
theorem snapshot_is_one_copy_out_witness :
    (exec (sysInit (fun _ => false))
        (List.replicate 27 (Turn.rt ![true, false]) ++
          [Turn.app, Turn.rt ![true, false], Turn.app, Turn.rt ![true, false],
            Turn.rt ![true, false], Turn.app, Turn.app, Turn.app, Turn.app])).appPinCount 0 = 1 ∧
    (exec (sysInit (fun _ => false))
        (List.replicate 27 (Turn.rt ![true, false]) ++
          [Turn.app, Turn.rt ![true, false], Turn.app, Turn.rt ![true, false],
            Turn.rt ![true, false], Turn.app, Turn.app, Turn.app, Turn.app])).appPinCount 1 = 0 ∧
    copiedOut (fun _ => false)
      (List.replicate 27 (Turn.rt ![true, false]) ++
        [Turn.app, Turn.rt ![true, false], Turn.app, Turn.rt ![true, false],
          Turn.rt ![true, false], Turn.app, Turn.app, Turn.app, Turn.app])
      (exec (sysInit (fun _ => false))
        (List.replicate 27 (Turn.rt ![true, false]) ++
          [Turn.app, Turn.rt ![true, false], Turn.app, Turn.rt ![true, false],
            Turn.rt ![true, false], Turn.app, Turn.app, Turn.app, Turn.app])).appPinCount :=
  ⟨by decide, by decide,
    snapshot_is_one_copy_out (fun _ => false)
      (List.replicate 27 (Turn.rt ![true, false]) ++
        [Turn.app, Turn.rt ![true, false], Turn.app, Turn.rt ![true, false],
          Turn.rt ![true, false], Turn.app, Turn.app, Turn.app, Turn.app])
      (by decide)⟩

end WaterMeter
